import Mathlib

/-!
Verification development for the moneywise-bot expense extractor and
guided-entry dialog flow (`app/services/expenses.py`, `app/handlers/add.py`).

Text is modelled as `List Char`.  Python `re` classes are modelled for the
character ranges the program actually uses: `\d` as the ASCII digits and
`\w` as ASCII alphanumerics, underscore, and the Cyrillic block
U+0400..U+04FF (the bot's messages and aliases are Russian).  Case folding
(`re.IGNORECASE`) is modelled for ASCII and Cyrillic letters.
-/

deriving instance DecidableEq for Except

namespace Moneywise

/-- Python `\d` (ASCII range used by the program). -/
def isDigitC (c : Char) : Bool := c.isDigit

/-- Python `\w`: ASCII alphanumeric, underscore, or Cyrillic letter. -/
def isWordC (c : Char) : Bool :=
  c.isAlpha || c.isDigit || c = '_' || (0x400 ≤ c.toNat && c.toNat ≤ 0x4FF)

/-- Case folding for ASCII and Cyrillic letters (`re.IGNORECASE`). -/
def lowerC (c : Char) : Char :=
  if 'A' ≤ c && c ≤ 'Z' then Char.ofNat (c.toNat + 32)
  else if 0x410 ≤ c.toNat && c.toNat ≤ 0x42F then Char.ofNat (c.toNat + 0x20)
  else if c.toNat = 0x401 then Char.ofNat 0x451
  else c

/-- Python `str.split()` / `str.strip()` whitespace characters. -/
def isSpaceC (c : Char) : Bool :=
  c = ' ' || c = '\t' || c = '\n' || c = '\r' || c.toNat = 11 || c.toNat = 12

/-- `str.strip()`. -/
def strip (l : List Char) : List Char :=
  ((l.dropWhile isSpaceC).reverse.dropWhile isSpaceC).reverse

def splitWSAux : List Char → List Char → List (List Char)
  | [], acc => if acc = [] then [] else [acc.reverse]
  | c :: r, acc =>
    if isSpaceC c then
      (if acc = [] then splitWSAux r [] else acc.reverse :: splitWSAux r [])
    else splitWSAux r (c :: acc)

/-- `str.split()` with no arguments: split on whitespace runs. -/
def splitWS (l : List Char) : List (List Char) := splitWSAux l []

/-- `" ".join(words)`. -/
def joinSp : List (List Char) → List Char
  | [] => []
  | [w] => w
  | w :: ws => w ++ ' ' :: joinSp ws

/-- `" ".join(t.split())`: whitespace normalization. -/
def normWS (l : List Char) : List Char := joinSp (splitWS l)

/-- Numeric value of a digit string (most significant first). -/
def natOfDigits (l : List Char) : Nat :=
  l.foldl (fun a c => a * 10 + (c.toNat - 48)) 0

/-- Value of an amount token with integer digits `ds` and fraction digits
`fs` (`Decimal` parse of `ds ++ "." ++ fs`). -/
def amountVal (ds fs : List Char) : ℚ :=
  mkRat (natOfDigits ds * 10 ^ fs.length + natOfDigits fs) (10 ^ fs.length)

/-! ### Amount regex: `(?<!\d)(\d+(?:[.,]\d{1,2})?)(?!\d)` -/

/-- Match of the amount pattern anchored at the head of `l` (the
lookbehind is checked by the caller).  Returns the token length and its
integer and fraction digit groups.  The greedy `\d+` takes the maximal
digit run: giving back a digit cannot help since the next item either
requires `[.,]` or forbids a digit.  The optional fraction succeeds only
with exactly 1 or 2 digits followed by a non-digit, which for a maximal
fraction run means run length 1 or 2. -/
def amountTokenAt (l : List Char) : Option (Nat × List Char × List Char) :=
  let ds := l.takeWhile isDigitC
  if ds = [] then none
  else
    match l.drop ds.length with
    | sep :: r2 =>
      if sep = '.' ∨ sep = ',' then
        let fs := r2.takeWhile isDigitC
        if fs.length = 1 ∨ fs.length = 2 then some (ds.length + 1 + fs.length, ds, fs)
        else some (ds.length, ds, [])
      else some (ds.length, ds, [])
    | [] => some (ds.length, ds, [])

/-- `re.search` scan for the amount pattern: leftmost match wins; a match
cannot start right after a digit (`(?<!\d)`). -/
def amountSearchAux (prevDigit : Bool) (idx : Nat) : List Char → Option (Nat × Nat × List Char × List Char)
  | [] => none
  | c :: r =>
    match (if prevDigit then none else amountTokenAt (c :: r)) with
    | some (len, ds, fs) => some (idx, len, ds, fs)
    | none => amountSearchAux (isDigitC c) (idx + 1) r

def amountSearch (l : List Char) : Option (Nat × Nat × List Char × List Char) :=
  amountSearchAux false 0 l

/-! ### Date regex: `\b(\d{1,2})[.](\d{1,2})[.](\d{2,4})\b` -/

/-- Match of the date pattern anchored at the head of `l`; the leading
word boundary is checked by the caller.  Each bounded digit group is a
maximal run (a shorter take leaves a following digit, failing the next
literal `[.]` or the trailing `\b`), so the groups are deterministic. -/
def dateTokenAt (l : List Char) : Option (Nat × Nat × Nat × Nat) :=
  let d1 := l.takeWhile isDigitC
  if d1 = [] ∨ 2 < d1.length then none
  else
    match l.drop d1.length with
    | c1 :: r1 =>
      if c1 ≠ '.' then none
      else
        let d2 := r1.takeWhile isDigitC
        if d2 = [] ∨ 2 < d2.length then none
        else
          match r1.drop d2.length with
          | c2 :: r2 =>
            if c2 ≠ '.' then none
            else
              let d3 := r2.takeWhile isDigitC
              if d3.length < 2 ∨ 4 < d3.length then none
              else
                match r2.drop d3.length with
                | [] => some (d1.length + 1 + d2.length + 1 + d3.length,
                              natOfDigits d1, natOfDigits d2, natOfDigits d3)
                | c :: _ =>
                  if isWordC c then none
                  else some (d1.length + 1 + d2.length + 1 + d3.length,
                             natOfDigits d1, natOfDigits d2, natOfDigits d3)
          | [] => none
    | [] => none

/-- `re.search` scan for the date pattern.  The first group starts with a
digit (a word character), so the leading `\b` requires the previous
character to be a non-word character or the string edge. -/
def dateSearchAux (prevWord : Bool) (idx : Nat) : List Char → Option (Nat × Nat × Nat × Nat × Nat)
  | [] => none
  | c :: r =>
    match (if prevWord then none else dateTokenAt (c :: r)) with
    | some (len, d, m, y) => some (idx, len, d, m, y)
    | none => dateSearchAux (isWordC c) (idx + 1) r

def dateSearch (l : List Char) : Option (Nat × Nat × Nat × Nat × Nat) :=
  dateSearchAux false 0 l

/-! ### Whole-word literal search: `re.compile(rf"\b{ESC}\b", re.IGNORECASE)`
(the needle is `re.escape`d in the source, hence a literal). -/

def headWordB : List Char → Bool
  | [] => false
  | c :: _ => isWordC c

/-- Consume `needle` against the head of `t` case-insensitively, returning
the word-character status of the last consumed text character and the
remaining text. -/
def consumeLower (needle t : List Char) (lastW : Bool) : Option (Bool × List Char) :=
  match needle, t with
  | [], rest => some (lastW, rest)
  | _ :: _, [] => none
  | n :: ns, c :: cs =>
    if lowerC c = lowerC n then consumeLower ns cs (isWordC c) else none

/-- Whole-word match of a nonempty literal `needle` anchored at the head of
`t`.  `prevW`: whether the character before `t` is a word character
(string edge counts as non-word).  Category names are validated nonempty
by the category handlers, and the date aliases are nonempty, so the
`needle = []` case is unreachable in the program. -/
def matchWordAt (needle : List Char) (prevW : Bool) (t : List Char) : Bool :=
  match needle, t with
  | [], _ => false
  | _ :: _, [] => false
  | _ :: _, c :: _ =>
    if prevW = isWordC c then false
    else
      match consumeLower needle t false with
      | none => false
      | some (lastW, rest) => !(lastW = headWordB rest)

def wordSearchAux (needle : List Char) (prevW : Bool) (idx : Nat) : List Char → Option Nat
  | [] => none
  | c :: r =>
    if matchWordAt needle prevW (c :: r) then some idx
    else wordSearchAux needle (isWordC c) (idx + 1) r

def wordSearch (needle t : List Char) : Option Nat := wordSearchAux needle false 0 t

/-! ### Calendar dates (`datetime.date`) -/

structure Date where
  year : Nat
  month : Nat
  day : Nat
deriving DecidableEq, Repr

/-- Chronological order on calendar dates is lexicographic on
(year, month, day). -/
def Date.ble (a b : Date) : Bool :=
  a.year < b.year ||
    (a.year = b.year &&
      (a.month < b.month || (a.month = b.month && a.day ≤ b.day)))

def isLeap (y : Nat) : Bool := y % 4 = 0 && (y % 100 ≠ 0 || y % 400 = 0)

def daysInMonth (y m : Nat) : Nat :=
  if m = 2 then (if isLeap y then 29 else 28)
  else if m = 4 || m = 6 || m = 9 || m = 11 then 30
  else 31

/-- `datetime.date(y, m, d)`: `none` models `ValueError`. -/
def mkValidDate (y m d : Nat) : Option Date :=
  if 1 ≤ y && y ≤ 9999 && 1 ≤ m && m ≤ 12 && 1 ≤ d && d ≤ daysInMonth y m then
    some ⟨y, m, d⟩
  else none

/-- The day before `d` (`d - timedelta(days=1)`). -/
def Date.prev (d : Date) : Date :=
  if 1 < d.day then ⟨d.year, d.month, d.day - 1⟩
  else if 1 < d.month then ⟨d.year, d.month - 1, daysInMonth d.year (d.month - 1)⟩
  else ⟨d.year - 1, 12, 31⟩

/-- `d - timedelta(days=n)`. -/
def Date.subDays (d : Date) : Nat → Date
  | 0 => d
  | n + 1 => (Date.subDays d n).prev

/-! ### The extractor: `ExpenseService.parse_smart_message` -/

/-- The fields of `app.db.models.Category` the extractor and flow use. -/
structure Category where
  id : Nat
  name : List Char
deriving DecidableEq, Repr

/-- `SmartExpenseDraft`.  `spentAt` is the date part of the stored
`datetime`; the source combines the matched date with `now`'s
time-of-day (`now.replace(year=..., month=..., day=...)`), which does not
affect the date. -/
structure SmartExpenseDraft where
  category : Option Category
  amount : Option ℚ
  spentAt : Option Date
  description : Option (List Char)
deriving DecidableEq, Repr

/-- `DATE_ALIASES`: a `dict`, iterated in insertion order. -/
def DATE_ALIASES : List (List Char × Nat) :=
  [("сегодня".toList, 0), ("вчера".toList, 1), ("позавчера".toList, 2)]

/-- Amount stage: first regex match; `Decimal` parse of the token (which
never fails for a token of this shape); keep only a positive value, with
its span.  A non-positive value contributes neither amount nor span. -/
def amountStage (text : List Char) : Option ℚ × List (Nat × Nat) :=
  match amountSearch text with
  | none => (none, [])
  | some (i, len, ds, fs) =>
    let v := amountVal ds fs
    if 0 < v then (some v, [(i, i + len)]) else (none, [])

/-- Explicit-date stage: first `DD.MM.YYYY`/`DD.MM.YY` match; a two-digit
year gets `+2000`; an invalid calendar date (`ValueError`) or a date
after `now` is discarded with no span. -/
def explicitDateStage (text : List Char) (now : Date) : Option Date × List (Nat × Nat) :=
  match dateSearch text with
  | none => (none, [])
  | some (i, len, d, m, y) =>
    let y2 := if y < 100 then y + 2000 else y
    match mkValidDate y2 m d with
    | none => (none, [])
    | some dv => if Date.ble dv now then (some dv, [(i, i + len)]) else (none, [])

/-- Alias stage: the aliases are tried in `DATE_ALIASES` order; the first
alias that occurs anywhere in the text (as a case-insensitive whole word)
wins. -/
def aliasScan (text : List Char) (now : Date) : List (List Char × Nat) → Option Date × List (Nat × Nat)
  | [] => (none, [])
  | (a, off) :: rest =>
    match wordSearch a text with
    | some i => (some (Date.subDays now off), [(i, i + a.length)])
    | none => aliasScan text now rest

def aliasStage (text : List Char) (now : Date) : Option Date × List (Nat × Nat) :=
  aliasScan text now DATE_ALIASES

/-- `sorted(categories, key=lambda item: len(item.name), reverse=True)`:
stable insertion sort, descending by name length. -/
def insertByLen (c : Category) : List Category → List Category
  | [] => [c]
  | d :: ds =>
    if d.name.length ≤ c.name.length then c :: d :: ds
    else d :: insertByLen c ds

def sortCatsDesc (l : List Category) : List Category := l.foldr insertByLen []

def catScan (text : List Char) : List Category → Option Category × List (Nat × Nat)
  | [] => (none, [])
  | c :: rest =>
    match wordSearch c.name text with
    | some i => (some c, [(i, i + c.name.length)])
    | none => catScan text rest

def categoryStage (categories : List Category) (text : List Char) : Option Category × List (Nat × Nat) :=
  catScan text (sortCatsDesc categories)

/-- Lexicographic order on spans (`sorted` of Python pairs). -/
def spanLe (a b : Nat × Nat) : Bool :=
  a.1 < b.1 || (a.1 == b.1 && a.2 ≤ b.2)

def insertSpan (a : Nat × Nat) : List (Nat × Nat) → List (Nat × Nat)
  | [] => [a]
  | b :: bs => if spanLe a b then a :: b :: bs else b :: insertSpan a bs

def sortSpans (l : List (Nat × Nat)) : List (Nat × Nat) := l.foldr insertSpan []

/-- `text[a:b]` for `a ≤ b` within bounds. -/
def slice (text : List Char) (a b : Nat) : List Char := (text.drop a).take (b - a)

/-- `ExpenseService._extract_description`. -/
def extractDescription (text : List Char) (spans : List (Nat × Nat)) : Option (List Char) :=
  if spans = [] then none
  else
    let acc := (sortSpans spans).foldl
      (fun (p : List Char × Nat) (sp : Nat × Nat) =>
        (p.1 ++ (if p.2 < sp.1 then slice text p.2 sp.1 else []), max p.2 sp.2))
      ([], 0)
    let remaining := acc.1 ++ text.drop acc.2
    let n := normWS remaining
    if n = [] then none else some n

/-- The entity stages of `parse_smart_message` on the stripped text:
amount, explicit date falling back to aliases, category; the consumed
spans are removed for the description, and with no span at all the
whitespace-normalized whole text becomes the description (`None` when
empty). -/
def draftStages (text : List Char) (categories : List Category) (now : Date) : SmartExpenseDraft :=
  let am := amountStage text
  let ed := explicitDateStage text now
  let dd := if ed.1 = none then aliasStage text now else ed
  let ct := categoryStage categories text
  let spans := am.2 ++ dd.2 ++ ct.2
  let description :=
    if spans = [] then (let n := normWS text; if n = [] then none else some n)
    else extractDescription text spans
  ⟨ct.1, am.1, dd.1, description⟩

/-- `ExpenseService.parse_smart_message`. -/
def parse_smart_message (messageText : List Char) (categories : List Category) (now : Date) : SmartExpenseDraft :=
  let text := strip messageText
  if text = [] then ⟨none, none, none, none⟩
  else draftStages text categories now

/-! ### `ExpenseService.parse_amount` and `Decimal` literals -/

/-- Strip a leading sign; `true` means negative. -/
def signSplit (l : List Char) : Bool × List Char :=
  match l with
  | c :: r => if c = '+' then (false, r) else if c = '-' then (true, r) else (false, l)
  | [] => (false, l)

/-- `Decimal(s)` for finite numeric literals
`[+-]? digits [. digits] [(e|E) [+-]? digits]` with at least one mantissa
digit; the value `±(ds.fs) × 10^(±xs)` is built with a single `mkRat` so
the model is executable down to the kernel.  Special values (`NaN`,
`Infinity`) and non-ASCII digits are not used by the program and are out
of the model. -/
def parseDecimal (l : List Char) : Option ℚ :=
  let sr := signSplit l
  let ds := sr.2.takeWhile isDigitC
  let r2 := sr.2.drop ds.length
  let fr : List Char × List Char :=
    match r2 with
    | c :: rr =>
      if c = '.' then (rr.takeWhile isDigitC, rr.drop (rr.takeWhile isDigitC).length)
      else ([], r2)
    | [] => ([], r2)
  if ds = [] ∧ fr.1 = [] then none
  else
    let n : Int := (if sr.1 then -1 else 1) * (natOfDigits ds * 10 ^ fr.1.length + natOfDigits fr.1 : Nat)
    let den : Nat := 10 ^ fr.1.length
    match fr.2 with
    | [] => some (mkRat n den)
    | e :: r4 =>
      if e = 'e' ∨ e = 'E' then
        let es : Bool × List Char :=
          match r4 with
          | c :: r => if c = '+' then (false, r) else if c = '-' then (true, r) else (false, r4)
          | [] => (false, r4)
        let xs := es.2.takeWhile isDigitC
        if xs = [] ∨ es.2.drop xs.length ≠ [] then none
        else if es.1 then some (mkRat n (den * 10 ^ natOfDigits xs))
        else some (mkRat (n * (10 : Int) ^ natOfDigits xs) den)
      else none

def AMOUNT_NOT_A_NUMBER : String := "Сумма должна быть числом"
def AMOUNT_NOT_POSITIVE : String := "Сумма должна быть положительной"

/-- `ExpenseService.parse_amount`. -/
def parse_amount (value : List Char) : Except String ℚ :=
  let normalized := (strip value).map (fun c => if c = ',' then '.' else c)
  if normalized = [] then .error AMOUNT_NOT_A_NUMBER
  else
    match parseDecimal normalized with
    | none => .error AMOUNT_NOT_A_NUMBER
    | some a => if a ≤ 0 then .error AMOUNT_NOT_POSITIVE else .ok a

/-! ### `datetime.strptime(text, "%d.%m.%Y")` for manually typed dates -/

/-- Parse a 1-2 digit field in `1..hi` followed by `'.'`; CPython's
`_strptime` regex for `%d`/`%m` admits a two-digit value in range or a
single nonzero digit, and the following literal `'.'` rules out any other
split of a digit run. -/
def parseDayMonth (l : List Char) (hi : Nat) : Option (Nat × List Char) :=
  match l with
  | a :: b :: '.' :: r =>
    if isDigitC a && isDigitC b then
      let v := natOfDigits [a, b]
      if 1 ≤ v && v ≤ hi then some (v, r) else none
    else none
  | a :: '.' :: r =>
    if isDigitC a && a ≠ '0' then some (natOfDigits [a], r) else none
  | _ => none

/-- `dt.datetime.strptime(text, "%d.%m.%Y").date()`: `%Y` is exactly four
digits, the whole string must be consumed, and the resulting date must be
a valid calendar date. -/
def parseManualDate (l : List Char) : Option Date :=
  match parseDayMonth l 31 with
  | none => none
  | some (d, r1) =>
    match parseDayMonth r1 12 with
    | none => none
    | some (m, r2) =>
      match r2 with
      | [y1, y2, y3, y4] =>
        if isDigitC y1 && isDigitC y2 && isDigitC y3 && isDigitC y4 then
          mkValidDate (natOfDigits [y1, y2, y3, y4]) m d
        else none
      | _ => none

/-! ### The guided-entry dialog flow (`app/handlers/add.py`)

The aiogram FSM context is modelled as a `Session`; the per-state router
filters are modelled by dispatching a text message to the handler that owns
the current state.  Each event carries the data the framework or the
database would supply (`today`, the category list, lookup results). -/

inductive DialogStep
  | idle
  | choosingCategory
  | choosingDate
  | enteringAmount
  | enteringDescription
deriving DecidableEq, Repr

/-- The FSM data keys written by the flow.  `amount` is stored as
`str(Decimal)` in the source and re-parsed with `Decimal` at finalize,
a round trip; the model stores the value. `spentAt` is stored as an ISO
datetime string; the model stores its date part (the time-of-day carried
along is irrelevant to the flow's decisions). -/
structure SessionData where
  categoryId : Option Nat
  categoryName : Option (List Char)
  amount : Option ℚ
  spentAt : Option Date
  prefilledDescription : Option (List Char)
deriving DecidableEq, Repr

structure Session where
  step : DialogStep
  data : SessionData
deriving DecidableEq, Repr

def emptyData : SessionData := ⟨none, none, none, none, none⟩

def clearSession : Session := ⟨.idle, emptyData⟩

def initSession : Session := clearSession

/-- Observable responses, by kind; `errText` carries the exact message. -/
inductive Reply
  | noReply
  | fallback
  | noCategories
  | promptCategory
  | promptDate
  | promptAmount
  | promptDescription
  | success
  | errText (msg : String)
  | buttonsHint
  | dateHint
  | cancelled
  | legacyAdd
deriving DecidableEq, Repr

/-- Context an event is processed in: the user's categories, the current
date, and whether the category id still resolves at `add_expense`. -/
structure Ctx where
  categories : List Category
  today : Date
  lookupOk : Bool

inductive Event
  | textMessage (raw : List Char)
  | addCommand (raw : List Char)
  | chooseCategory (found : Option Category)
  | pickDate (parsed : Option Date)
  | skipDescr
  | restartFlow
  | cancelFlow

def FINALIZE_RESTART_MSG : String :=
  "Не удалось завершить добавление расхода. Попробуйте ещё раз."

/-- `prefilled_raw.strip() if isinstance(prefilled_raw, str) and
prefilled_raw.strip() else None`. -/
def prefilledStripped (d : SessionData) : Option (List Char) :=
  match d.prefilledDescription with
  | none => none
  | some p => let s := strip p; if s = [] then none else some s

/-- `finalize_expense`: missing required keys clear the session and raise;
`fromisoformat` of the stored ISO string always succeeds (it was written
by the flow); a failed category lookup in `add_expense` raises without
clearing; success persists, clears, and confirms. -/
def finalize_expense (lookupOk : Bool) (s : Session) : Session × Reply :=
  if s.data.categoryId.isSome ∧ s.data.categoryName.isSome
      ∧ s.data.amount.isSome ∧ s.data.spentAt.isSome then
    if lookupOk then (clearSession, .success)
    else (s, .errText "Категория не найдена")
  else (clearSession, .errText FINALIZE_RESTART_MSG)

/-- Shared tail of the date/amount/category handlers: the session already
holds a date; if an amount is present move to the description step,
finalizing at once when a prefilled description exists. -/
def descStepOrFinalize (lookupOk : Bool) (data : SessionData) : Session × Reply :=
  let s2 : Session := ⟨.enteringDescription, data⟩
  match prefilledStripped data with
  | some _ => finalize_expense lookupOk s2
  | none => (s2, .promptDescription)

def headIsSlash : List Char → Bool
  | '/' :: _ => true
  | _ => false

/-- `start_add_expense_flow`. -/
def start_add_expense_flow (ctx : Ctx) : Session × Reply :=
  if ctx.categories = [] then (clearSession, .noCategories)
  else (⟨.choosingCategory, emptyData⟩, .promptCategory)

/-- `smart_expense_input` (free text while no FSM state is active). -/
def smart_expense_input (ctx : Ctx) (raw : List Char) (s : Session) : Session × Reply :=
  let text := strip raw
  if text = [] ∨ headIsSlash text then (s, .noReply)
  else
    let parsed := parse_smart_message text ctx.categories ctx.today
    if parsed.category = none ∧ parsed.spentAt = none ∧ parsed.amount = none then
      (s, .fallback)
    else if ctx.categories = [] then (clearSession, .noCategories)
    else
      let data : SessionData :=
        { categoryId := parsed.category.map (·.id)
          categoryName := parsed.category.map (·.name)
          amount := parsed.amount
          spentAt := parsed.spentAt
          prefilledDescription :=
            if parsed.description.isSome
                ∧ ¬(parsed.category.isSome ∧ parsed.spentAt.isSome ∧ parsed.amount.isSome) then
              parsed.description
            else none }
      if parsed.category = none then (⟨.choosingCategory, data⟩, .promptCategory)
      else if parsed.spentAt = none then (⟨.choosingDate, data⟩, .promptDate)
      else if parsed.amount = none then (⟨.enteringAmount, data⟩, .promptAmount)
      else
        match parsed.description with
        | some _ => finalize_expense ctx.lookupOk ⟨.enteringDescription, data⟩
        | none => (⟨.enteringDescription, data⟩, .promptDescription)

/-- `category_chosen` (callback in `choosing_category`). -/
def category_chosen (ctx : Ctx) (found : Option Category) (s : Session) : Session × Reply :=
  match found with
  | none => (s, .errText "Категория не найдена")
  | some cat =>
    let data := { s.data with categoryId := some cat.id, categoryName := some cat.name }
    if data.spentAt.isSome then
      if data.amount.isSome then descStepOrFinalize ctx.lookupOk data
      else (⟨.enteringAmount, data⟩, .promptAmount)
    else (⟨.choosingDate, data⟩, .promptDate)

/-- Shared tail of `date_selected` / `manual_date_entered` after the
future-date guard passed: store the date, then ask for the amount or move
on to the description step. -/
def dateAccepted (ctx : Ctx) (dv : Date) (s : Session) : Session × Reply :=
  let data := { s.data with spentAt := some dv }
  if data.amount.isSome then descStepOrFinalize ctx.lookupOk data
  else (⟨.enteringAmount, data⟩, .promptAmount)

/-- `date_selected` (quick-pick callback in `choosing_date`);
`parsed` is the `date.fromisoformat` result of the callback payload. -/
def date_selected (ctx : Ctx) (parsed : Option Date) (s : Session) : Session × Reply :=
  match parsed with
  | none => (s, .errText "Не удалось определить дату")
  | some dv =>
    if Date.ble dv ctx.today then dateAccepted ctx dv s
    else (s, .errText "Нельзя выбирать дату из будущего")

/-- `manual_date_entered` (typed text in `choosing_date`). -/
def manual_date_entered (ctx : Ctx) (raw : List Char) (s : Session) : Session × Reply :=
  let text := strip raw
  if text = [] then (s, .dateHint)
  else
    match parseManualDate text with
    | none => (s, .errText "Не удалось распознать дату. Используйте формат ДД.ММ.ГГГГ, например 05.09.2024.")
    | some dv =>
      if Date.ble dv ctx.today then dateAccepted ctx dv s
      else (s, .errText "Нельзя выбрать дату из будущего. Попробуйте указать другую дату.")

/-- `amount_received` (typed text in `entering_amount`). -/
def amount_received (ctx : Ctx) (raw : List Char) (s : Session) : Session × Reply :=
  match parse_amount raw with
  | .error m => (s, .errText m)
  | .ok v => descStepOrFinalize ctx.lookupOk { s.data with amount := some v }

/-- `description_received` (typed text in `entering_description`).  The
typed text becomes the recorded expense's description and does not affect
the session outcome. -/
def description_received (ctx : Ctx) (_raw : List Char) (s : Session) : Session × Reply :=
  finalize_expense ctx.lookupOk s

/-- `cmd_add`: `/add` with arguments uses the legacy one-shot path (no
session mutation); bare `/add` starts the guided flow. -/
def cmd_add (ctx : Ctx) (raw : List Char) (s : Session) : Session × Reply :=
  let text := strip raw
  if text ≠ [] && text ≠ "/add".toList then (s, .legacyAdd)
  else start_add_expense_flow ctx

/-- One dispatch step, per-handler: each event is routed to the handler
whose filters name its state, with callbacks guarded by their state
filters.  For text messages the non-idle arms model what each
state-bound handler does when invoked; under the program's actual
registration order (`smart_expense_input` first, with a bare text filter
and no state filter) typed text never reaches those handlers — the
faithful text dispatch is `dispatchText` below — so the non-idle text
arms over-approximate the program, which does nothing there. -/
def handle (ctx : Ctx) (e : Event) (s : Session) : Session × Reply :=
  match e with
  | .textMessage raw =>
    match s.step with
    | .idle => smart_expense_input ctx raw s
    | .choosingCategory => (s, .buttonsHint)
    | .choosingDate => manual_date_entered ctx raw s
    | .enteringAmount => amount_received ctx raw s
    | .enteringDescription => description_received ctx raw s
  | .addCommand raw => cmd_add ctx raw s
  | .chooseCategory found =>
    match s.step with
    | .choosingCategory => category_chosen ctx found s
    | _ => (s, .noReply)
  | .pickDate parsed =>
    match s.step with
    | .choosingDate => date_selected ctx parsed s
    | _ => (s, .noReply)
  | .skipDescr =>
    match s.step with
    | .enteringDescription => finalize_expense ctx.lookupOk s
    | _ => (s, .noReply)
  | .restartFlow => start_add_expense_flow ctx
  | .cancelFlow => (clearSession, .cancelled)

/-- Run a trace of events, each with its own context. -/
def runTrace : List (Ctx × Event) → Session → Session
  | [], s => s
  | (c, e) :: rest, s => runTrace rest (handle c e s).1

/-- Registration-order dispatch of a text message.  `smart_expense_input`
is registered first (`@router.message(F.text)`, no state filter), so the
first-matching-handler rule sends every text message to it in every FSM
state, and its return stops propagation: the state-bound text handlers
and `Command("add")`, all registered later, never receive typed text.
With an active state the handler returns at its
`current_state is not None` check (after the same empty/command check as
when idle, which also changes nothing), leaving the session untouched
with no reply. -/
def dispatchText (ctx : Ctx) (raw : List Char) (s : Session) : Session × Reply :=
  if s.step = .idle then smart_expense_input ctx raw s
  else (s, .noReply)

/-- The session invariant relative to an observation date `td`. -/
def SessionInv (td : Date) (s : Session) : Prop :=
  (∀ a, s.data.amount = some a → 0 < a) ∧
  (∀ d, s.data.spentAt = some d → Date.ble d td = true)

/-! ## Basic lemmas about dates -/

theorem ble_refl (d : Date) : Date.ble d d = true := by
  simp [Date.ble]

theorem ble_trans {a b c : Date} (h1 : Date.ble a b = true) (h2 : Date.ble b c = true) :
    Date.ble a c = true := by
  simp only [Date.ble, Bool.or_eq_true, Bool.and_eq_true, decide_eq_true_eq] at *
  omega

theorem prev_le (d : Date) (h : 1 ≤ d.year ∨ 2 ≤ d.month ∨ 2 ≤ d.day) :
    Date.ble d.prev d = true := by
  unfold Date.prev
  split
  · simp only [Date.ble, Bool.or_eq_true, Bool.and_eq_true, decide_eq_true_eq, true_and]
    omega
  · split
    · simp only [Date.ble, Bool.or_eq_true, Bool.and_eq_true, decide_eq_true_eq, true_and]
      omega
    · rename_i h1 h2
      simp only [Date.ble, Bool.or_eq_true, Bool.and_eq_true, decide_eq_true_eq, true_and]
      omega

theorem prev_cond (d : Date) (h : 1 ≤ d.year) :
    1 ≤ d.prev.year ∨ 2 ≤ d.prev.month ∨ 2 ≤ d.prev.day := by
  unfold Date.prev
  split
  · left; exact h
  · split
    · left; exact h
    · right; left; dsimp only; omega

theorem subDays_le2 (now : Date) (k : Nat) (hy : 1 ≤ now.year) (hk : k ≤ 2) :
    Date.ble (now.subDays k) now = true := by
  match k, hk with
  | 0, _ => exact ble_refl now
  | 1, _ =>
    show Date.ble (Date.prev (now.subDays 0)) now = true
    exact prev_le now (Or.inl hy)
  | 2, _ =>
    show Date.ble (Date.prev (Date.prev (now.subDays 0))) now = true
    exact ble_trans (prev_le _ (prev_cond now hy)) (prev_le now (Or.inl hy))

/-! ## Stage guard lemmas -/

theorem amountStage_pos (t : List Char) (v : ℚ) (h : (amountStage t).1 = some v) : 0 < v := by
  rcases heq : amountSearch t with _ | ⟨i, len, ds, fs⟩ <;>
    simp only [amountStage, heq] at h
  · exact absurd h (by simp)
  · split at h
    · rename_i hpos
      cases h
      exact hpos
    · simp at h

theorem amountStage_none_span (t : List Char) (h : (amountStage t).1 = none) :
    (amountStage t).2 = [] := by
  rcases heq : amountSearch t with _ | ⟨i, len, ds, fs⟩ <;>
    simp only [amountStage, heq] at h ⊢
  split at h
  · simp at h
  · rename_i hneg
    simp only [if_neg hneg]

theorem explicitDateStage_le (t : List Char) (now : Date) (d : Date)
    (h : (explicitDateStage t now).1 = some d) : Date.ble d now = true := by
  rcases heq : dateSearch t with _ | ⟨i, len, dd, mm, yy⟩ <;>
    simp only [explicitDateStage, heq] at h
  · exact absurd h (by simp)
  · rcases hmk : mkValidDate (if yy < 100 then yy + 2000 else yy) mm dd with _ | dv <;>
      simp only [hmk] at h
    · exact absurd h (by simp)
    · split at h
      · rename_i hble
        cases h
        exact hble
      · simp at h

theorem explicitDateStage_none_span (t : List Char) (now : Date)
    (h : (explicitDateStage t now).1 = none) : (explicitDateStage t now).2 = [] := by
  rcases heq : dateSearch t with _ | ⟨i, len, dd, mm, yy⟩ <;>
    simp only [explicitDateStage, heq] at h ⊢
  rcases hmk : mkValidDate (if yy < 100 then yy + 2000 else yy) mm dd with _ | dv <;>
    simp only [hmk] at h ⊢
  split at h
  · simp at h
  · rename_i hneg
    simp only [if_neg hneg]

theorem aliasScan_le (t : List Char) (now : Date) (l : List (List Char × Nat)) (d : Date)
    (hy : 1 ≤ now.year) (hoff : ∀ p ∈ l, p.2 ≤ 2)
    (h : (aliasScan t now l).1 = some d) : Date.ble d now = true := by
  induction l with
  | nil => simp [aliasScan] at h
  | cons p rest ih =>
    rcases p with ⟨a, off⟩
    rcases hw : wordSearch a t with _ | i <;> simp only [aliasScan, hw] at h
    · exact ih (fun q hq => hoff q (List.mem_cons_of_mem _ hq)) h
    · cases h
      exact subDays_le2 now off hy (hoff ⟨a, off⟩ (List.mem_cons_self _ _))

theorem aliasStage_le (t : List Char) (now : Date) (d : Date) (hy : 1 ≤ now.year)
    (h : (aliasStage t now).1 = some d) : Date.ble d now = true := by
  refine aliasScan_le t now DATE_ALIASES d hy ?_ h
  intro p hp
  simp only [DATE_ALIASES, List.mem_cons, List.not_mem_nil, or_false] at hp
  rcases hp with h1 | h1 | h1 <;> subst h1 <;> decide

theorem aliasScan_none_span (t : List Char) (now : Date) (l : List (List Char × Nat))
    (h : (aliasScan t now l).1 = none) : (aliasScan t now l).2 = [] := by
  induction l with
  | nil => rfl
  | cons p rest ih =>
    rcases p with ⟨a, off⟩
    rcases hw : wordSearch a t with _ | i <;> simp only [aliasScan, hw] at h ⊢
    · exact ih h
    · simp at h

theorem catScan_none_span (t : List Char) (l : List Category)
    (h : (catScan t l).1 = none) : (catScan t l).2 = [] := by
  induction l with
  | nil => rfl
  | cons c rest ih =>
    rcases hw : wordSearch c.name t with _ | i <;> simp only [catScan, hw] at h ⊢
    · exact ih h
    · simp at h

theorem parse_amount_ok_pos (l : List Char) (v : ℚ) (h : parse_amount l = .ok v) : 0 < v := by
  simp only [parse_amount] at h
  split at h
  · simp at h
  · rcases hd : parseDecimal ((strip l).map fun c => if c = ',' then '.' else c) with _ | a <;>
      simp only [hd] at h
    · exact absurd h (by simp)
    · split at h
      · simp at h
      · rename_i hle
        cases h
        exact lt_of_not_ge hle

/-! ## Projections of the extractor -/

theorem parse_empty (t : List Char) (cats : List Category) (now : Date) (h : strip t = []) :
    parse_smart_message t cats now = ⟨none, none, none, none⟩ := by
  simp [parse_smart_message, h]

theorem parse_nonempty (t : List Char) (cats : List Category) (now : Date) (h : strip t ≠ []) :
    parse_smart_message t cats now = draftStages (strip t) cats now := by
  simp [parse_smart_message, h]

theorem draftStages_amount (t : List Char) (cats : List Category) (now : Date) :
    (draftStages t cats now).amount = (amountStage t).1 := rfl

theorem draftStages_category (t : List Char) (cats : List Category) (now : Date) :
    (draftStages t cats now).category = (categoryStage cats t).1 := rfl

theorem draftStages_spentAt (t : List Char) (cats : List Category) (now : Date) :
    (draftStages t cats now).spentAt =
      (if (explicitDateStage t now).1 = none then aliasStage t now
       else explicitDateStage t now).1 := rfl

/-! ## Whitespace normalization facts -/

theorem dropWhile_head_false {p : Char → Bool} {l : List Char} {c : Char} {r : List Char}
    (h : l.dropWhile p = c :: r) : p c = false := by
  induction l with
  | nil => simp at h
  | cons a t ih =>
    rw [List.dropWhile_cons] at h
    split at h
    · exact ih h
    · rename_i hp
      cases h
      simpa using hp

theorem strip_exists_nonspace {l : List Char} (h : strip l ≠ []) :
    ∃ c ∈ strip l, isSpaceC c = false := by
  unfold strip at *
  rcases hd : (l.dropWhile isSpaceC).reverse.dropWhile isSpaceC with _ | ⟨c, r⟩
  · rw [hd] at h
    simp at h
  · exact ⟨c, by simp, dropWhile_head_false hd⟩

theorem splitWSAux_ne_nil (l : List Char) (acc : List Char)
    (h : (∃ c ∈ l, isSpaceC c = false) ∨ acc ≠ []) : splitWSAux l acc ≠ [] := by
  induction l generalizing acc with
  | nil =>
    rcases h with ⟨c, hc, _⟩ | h
    · simp at hc
    · simp [splitWSAux, h]
  | cons a t ih =>
    rw [splitWSAux]
    split
    · rename_i hs
      split
      · rename_i hacc
        apply ih
        left
        rcases h with ⟨c, hc, hns⟩ | hne
        · rcases List.mem_cons.mp hc with rfl | hc
          · rw [hs] at hns
            cases hns
          · exact ⟨c, hc, hns⟩
        · exact absurd hacc hne
      · simp
    · rename_i hs
      apply ih
      right
      simp

theorem splitWSAux_no_nil (l : List Char) (acc : List Char) : [] ∉ splitWSAux l acc := by
  induction l generalizing acc with
  | nil =>
    rw [splitWSAux]
    split
    · simp
    · rename_i h
      simp only [List.mem_singleton]
      intro hrev
      exact h (by simpa using hrev.symm)
  | cons a t ih =>
    rw [splitWSAux]
    split
    · split
      · exact ih []
      · rename_i hacc
        intro hmem
        rcases List.mem_cons.mp hmem with hrev | hmem2
        · exact hacc (by simpa using hrev.symm)
        · exact ih [] hmem2
    · exact ih _

theorem joinSp_ne_nil (ws : List (List Char)) (h1 : ws ≠ []) (h2 : [] ∉ ws) :
    joinSp ws ≠ [] := by
  match ws with
  | [] => exact absurd rfl h1
  | [w] =>
    have : w ≠ [] := fun hw => h2 (by simp [hw])
    simpa [joinSp] using this
  | w :: v :: rest =>
    show w ++ ' ' :: joinSp (v :: rest) ≠ []
    simp

theorem normWS_ne_nil (l : List Char) (h : ∃ c ∈ l, isSpaceC c = false) : normWS l ≠ [] :=
  joinSp_ne_nil _ (splitWSAux_ne_nil l [] (Or.inl h)) (splitWSAux_no_nil l [])

/-- With no entity recognized, no span is consumed and the description is
the whitespace-normalized text (or `None` when that is empty). -/
theorem draftStages_no_entity_description (t : List Char) (cats : List Category) (now : Date)
    (ha : (draftStages t cats now).amount = none)
    (hs : (draftStages t cats now).spentAt = none)
    (hc : (draftStages t cats now).category = none) :
    (draftStages t cats now).description =
      (if normWS t = [] then none else some (normWS t)) := by
  rw [draftStages_amount] at ha
  rw [draftStages_spentAt] at hs
  rw [draftStages_category] at hc
  have ham : (amountStage t).2 = [] := amountStage_none_span t ha
  have hct : (categoryStage cats t).2 = [] := catScan_none_span t _ hc
  have hdd : (if (explicitDateStage t now).1 = none then aliasStage t now
      else explicitDateStage t now).2 = [] := by
    by_cases hx : (explicitDateStage t now).1 = none
    · rw [if_pos hx] at hs ⊢
      exact aliasScan_none_span t now _ hs
    · rw [if_neg hx] at hs
      exact absurd hs hx
  simp only [draftStages, ham, hct, hdd, List.append_nil, List.nil_append]
  simp

/-- C10: for every input whose stripped text is nonempty, the extractor
sets at least one draft field: when no amount, date, or category is
recognized, the whitespace-normalized whole text becomes the description;
the all-unset draft arises exactly from empty or whitespace-only input. -/
theorem nonempty_input_always_understood (t : List Char) (cats : List Category) (now : Date) :
    (strip t = [] → parse_smart_message t cats now = ⟨none, none, none, none⟩) ∧
    (strip t ≠ [] →
      ((parse_smart_message t cats now).amount = none →
       (parse_smart_message t cats now).spentAt = none →
       (parse_smart_message t cats now).category = none →
       (parse_smart_message t cats now).description = some (normWS (strip t))) ∧
      parse_smart_message t cats now ≠ ⟨none, none, none, none⟩) := by
  refine ⟨parse_empty t cats now, fun h => ?_⟩
  have hnw : normWS (strip t) ≠ [] := normWS_ne_nil _ (strip_exists_nonspace h)
  rw [parse_nonempty t cats now h]
  constructor
  · intro ha hs hc
    rw [draftStages_no_entity_description _ _ _ ha hs hc, if_neg hnw]
  · intro heq
    have ha : (draftStages (strip t) cats now).amount = none := by rw [heq]
    have hs : (draftStages (strip t) cats now).spentAt = none := by rw [heq]
    have hc : (draftStages (strip t) cats now).category = none := by rw [heq]
    have hd : (draftStages (strip t) cats now).description = none := by rw [heq]
    rw [draftStages_no_entity_description _ _ _ ha hs hc, if_neg hnw] at hd
    cases hd

/-! ## C9: finalize with missing fields clears the session -/

/-- C9: if finalization runs while any required field (category id,
category name, amount, spentAt) is missing from the session, the session
is cleared and the user is asked to restart, so the flow never stays in a
half-finalized state after a structural failure. -/
theorem finalize_missing_clears_session (lookupOk : Bool) (s : Session)
    (h : s.data.categoryId = none ∨ s.data.categoryName = none ∨
         s.data.amount = none ∨ s.data.spentAt = none) :
    finalize_expense lookupOk s = (clearSession, .errText FINALIZE_RESTART_MSG) := by
  unfold finalize_expense
  rcases h with h | h | h | h <;> simp [h]

/-- Witness for C9 at a concrete session missing only the amount. -/
theorem finalize_missing_clears_session_witness :
    finalize_expense true
        ⟨.enteringDescription,
         ⟨some 1, some "такси".toList, none, some ⟨2024, 9, 5⟩, none⟩⟩
      = (clearSession, .errText FINALIZE_RESTART_MSG) :=
  finalize_missing_clears_session true _ (Or.inr (Or.inr (Or.inl rfl)))

/-! ## C3: the fallback condition ignores the description field -/

/-- Counterexample to C3 as stated: for the message "ужин" the extracted
draft has a set description, yet the handler still answers with the
fallback; the fallback therefore does not coincide with "every field
unset". -/
theorem fallback_despite_description_set :
    (parse_smart_message "ужин".toList [] ⟨2024, 9, 5⟩).description = some "ужин".toList ∧
    handle ⟨[], ⟨2024, 9, 5⟩, true⟩ (.textMessage "ужин".toList) initSession
      = (initSession, .fallback) := by
  decide

theorem finalize_reply_ne_fallback (lookupOk : Bool) (s : Session) :
    (finalize_expense lookupOk s).2 ≠ .fallback := by
  unfold finalize_expense
  split
  · split <;> simp
  · simp

theorem descStep_reply_ne_fallback (lookupOk : Bool) (d : SessionData) :
    (descStepOrFinalize lookupOk d).2 ≠ .fallback := by
  unfold descStepOrFinalize
  rcases prefilledStripped d with _ | p
  · simp
  · exact finalize_reply_ne_fallback lookupOk _

/-- C3 (amended): while idle, a nonempty non-command free-text message
produces the fallback reply if and only if the draft's amount, category
and spentAt are all unset (the description is not consulted: such a draft
always carries the normalized text as description); on fallback the
session is untouched. -/
theorem fallback_iff_no_entity (ctx : Ctx) (raw : List Char) (s : Session)
    (hstep : s.step = .idle) (hne : strip raw ≠ []) (hsl : headIsSlash (strip raw) = false) :
    ((handle ctx (.textMessage raw) s).2 = .fallback ↔
      ((parse_smart_message (strip raw) ctx.categories ctx.today).category = none ∧
       (parse_smart_message (strip raw) ctx.categories ctx.today).spentAt = none ∧
       (parse_smart_message (strip raw) ctx.categories ctx.today).amount = none)) ∧
    (((parse_smart_message (strip raw) ctx.categories ctx.today).category = none ∧
      (parse_smart_message (strip raw) ctx.categories ctx.today).spentAt = none ∧
      (parse_smart_message (strip raw) ctx.categories ctx.today).amount = none) →
      handle ctx (.textMessage raw) s = (s, .fallback)) := by
  rcases s with ⟨st, data⟩
  cases hstep
  have hh : handle ctx (.textMessage raw) ⟨.idle, data⟩
      = smart_expense_input ctx raw ⟨.idle, data⟩ := rfl
  rw [hh]
  unfold smart_expense_input
  rw [if_neg (by push_neg; exact ⟨hne, by simp [hsl]⟩)]
  by_cases hall :
      (parse_smart_message (strip raw) ctx.categories ctx.today).category = none ∧
      (parse_smart_message (strip raw) ctx.categories ctx.today).spentAt = none ∧
      (parse_smart_message (strip raw) ctx.categories ctx.today).amount = none
  · rw [if_pos hall]
    exact ⟨by simp [hall], fun _ => rfl⟩
  · rw [if_neg hall]
    refine ⟨⟨fun hf => ?_, fun hcontra => absurd hcontra hall⟩,
            fun hcontra => absurd hcontra hall⟩
    exfalso
    by_cases h0 : ctx.categories = []
    · rw [if_pos h0] at hf
      cases hf
    · rw [if_neg h0] at hf
      by_cases hc : (parse_smart_message (strip raw) ctx.categories ctx.today).category = none
      · rw [if_pos hc] at hf
        cases hf
      · rw [if_neg hc] at hf
        by_cases hsp : (parse_smart_message (strip raw) ctx.categories ctx.today).spentAt = none
        · rw [if_pos hsp] at hf
          cases hf
        · rw [if_neg hsp] at hf
          by_cases ham : (parse_smart_message (strip raw) ctx.categories ctx.today).amount = none
          · rw [if_pos ham] at hf
            cases hf
          · rw [if_neg ham] at hf
            rcases hdesc : (parse_smart_message (strip raw) ctx.categories ctx.today).description
                with _ | dstr <;> rw [hdesc] at hf
            · cases hf
            · exact finalize_reply_ne_fallback _ _ hf

/-- Witness for C3 (amended): the message "привет близко" has no entity,
so the handler falls back and leaves the session untouched. -/
theorem fallback_iff_no_entity_witness :
    (handle ⟨[⟨1, "такси".toList⟩], ⟨2024, 9, 5⟩, true⟩
        (.textMessage "привет близко".toList) initSession).2 = .fallback ∧
    handle ⟨[⟨1, "такси".toList⟩], ⟨2024, 9, 5⟩, true⟩
        (.textMessage "привет близко".toList) initSession
      = (initSession, .fallback) := by
  have h := fallback_iff_no_entity ⟨[⟨1, "такси".toList⟩], ⟨2024, 9, 5⟩, true⟩
    "привет близко".toList initSession rfl (by decide) (by decide)
  exact ⟨h.1.mpr (by decide), h.2 (by decide)⟩

/-! ## C1: the controller asks for the first unresolved field in the
fixed order category → date → amount → description -/

/-- C1: after merging a non-empty draft while idle (with categories
defined), the controller enters the state of the first unresolved field in
the fixed order category → date → amount → description; in particular the
input "2500" with one category defined parses to amount 2500 with
category unset, and the controller asks for the category, not the
amount. -/
theorem smart_input_resolution_order (ctx : Ctx) (raw : List Char) (s : Session)
    (hstep : s.step = .idle) (hcats : ctx.categories ≠ [])
    (hne : strip raw ≠ []) (hsl : headIsSlash (strip raw) = false)
    (hsome : ¬((parse_smart_message (strip raw) ctx.categories ctx.today).category = none ∧
               (parse_smart_message (strip raw) ctx.categories ctx.today).spentAt = none ∧
               (parse_smart_message (strip raw) ctx.categories ctx.today).amount = none)) :
    (((parse_smart_message (strip raw) ctx.categories ctx.today).category = none →
        (handle ctx (.textMessage raw) s).1.step = .choosingCategory ∧
        (handle ctx (.textMessage raw) s).2 = .promptCategory) ∧
     ((parse_smart_message (strip raw) ctx.categories ctx.today).category ≠ none →
      (parse_smart_message (strip raw) ctx.categories ctx.today).spentAt = none →
        (handle ctx (.textMessage raw) s).1.step = .choosingDate ∧
        (handle ctx (.textMessage raw) s).2 = .promptDate) ∧
     ((parse_smart_message (strip raw) ctx.categories ctx.today).category ≠ none →
      (parse_smart_message (strip raw) ctx.categories ctx.today).spentAt ≠ none →
      (parse_smart_message (strip raw) ctx.categories ctx.today).amount = none →
        (handle ctx (.textMessage raw) s).1.step = .enteringAmount ∧
        (handle ctx (.textMessage raw) s).2 = .promptAmount) ∧
     ((parse_smart_message (strip raw) ctx.categories ctx.today).category ≠ none →
      (parse_smart_message (strip raw) ctx.categories ctx.today).spentAt ≠ none →
      (parse_smart_message (strip raw) ctx.categories ctx.today).amount ≠ none →
      (parse_smart_message (strip raw) ctx.categories ctx.today).description = none →
        (handle ctx (.textMessage raw) s).1.step = .enteringDescription ∧
        (handle ctx (.textMessage raw) s).2 = .promptDescription)) ∧
    ((parse_smart_message "2500".toList [⟨1, "такси".toList⟩] ⟨2024, 9, 5⟩).amount
        = some 2500 ∧
     (parse_smart_message "2500".toList [⟨1, "такси".toList⟩] ⟨2024, 9, 5⟩).category = none ∧
     handle ⟨[⟨1, "такси".toList⟩], ⟨2024, 9, 5⟩, true⟩
         (.textMessage "2500".toList) initSession
       = (⟨.choosingCategory, ⟨none, none, some 2500, none, none⟩⟩, .promptCategory)) := by
  rcases s with ⟨st, data⟩
  cases hstep
  have hh : handle ctx (.textMessage raw) ⟨.idle, data⟩
      = smart_expense_input ctx raw ⟨.idle, data⟩ := rfl
  rw [hh]
  unfold smart_expense_input
  rw [if_neg (by push_neg; exact ⟨hne, by simp [hsl]⟩), if_neg hsome, if_neg hcats]
  refine ⟨⟨fun hc => ?_, fun hc hsp => ?_, fun hc hsp ham => ?_, fun hc hsp ham hd => ?_⟩,
          by decide⟩
  · rw [if_pos hc]
    exact ⟨rfl, rfl⟩
  · rw [if_neg hc, if_pos hsp]
    exact ⟨rfl, rfl⟩
  · rw [if_neg hc, if_neg hsp, if_pos ham]
    exact ⟨rfl, rfl⟩
  · rw [if_neg hc, if_neg hsp, if_neg ham, hd]
    exact ⟨rfl, rfl⟩

/-- Witness for C1 on the input "кофе вчера" (category and date set,
amount unresolved): the controller asks for the amount, and the concrete
"2500" part is included by the theorem itself. -/
theorem smart_input_resolution_order_witness :
    (handle ⟨[⟨7, "кофе".toList⟩], ⟨2024, 9, 5⟩, true⟩
        (.textMessage "кофе вчера".toList) initSession).1.step = .enteringAmount ∧
    (handle ⟨[⟨7, "кофе".toList⟩], ⟨2024, 9, 5⟩, true⟩
        (.textMessage "кофе вчера".toList) initSession).2 = .promptAmount := by
  have h := smart_input_resolution_order ⟨[⟨7, "кофе".toList⟩], ⟨2024, 9, 5⟩, true⟩
    "кофе вчера".toList initSession rfl (by decide) (by decide) (by decide) (by decide)
  exact h.1.2.2.1 (by decide) (by decide) (by decide)

/-! ## C5: date aliases are resolved in dictionary priority order, not by
leftmost occurrence -/

/-- Counterexample to C5 as stated: in "вчера сегодня" the alias "вчера"
occurs first in a left-to-right scan (position 0, against position 6 for
"сегодня"), yet the resolved date is `now` (offset 0 for "сегодня"), not
`now - 1` — the dictionary order, not the text order, decides. -/
theorem alias_leftmost_refuted :
    (parse_smart_message "вчера сегодня".toList [] ⟨2024, 9, 5⟩).spentAt
        = some ⟨2024, 9, 5⟩ ∧
    wordSearch "вчера".toList "вчера сегодня".toList = some 0 ∧
    wordSearch "сегодня".toList "вчера сегодня".toList = some 6 ∧
    some (⟨2024, 9, 5⟩ : Date) ≠ some (Date.subDays ⟨2024, 9, 5⟩ 1) := by
  decide

/-- C5 (amended): when no explicit date was accepted, the aliases are
matched as case-insensitive whole words with offsets 0/1/2 and are tried
in the fixed dictionary order сегодня → вчера → позавчера; the first
alias in that priority order that occurs anywhere in the text determines
spentAt. -/
theorem alias_priority_order (t : List Char) (cats : List Category) (now : Date)
    (hx : (explicitDateStage (strip t) now).1 = none) :
    ((wordSearch "сегодня".toList (strip t)).isSome →
       (parse_smart_message t cats now).spentAt = some (now.subDays 0)) ∧
    (wordSearch "сегодня".toList (strip t) = none →
     (wordSearch "вчера".toList (strip t)).isSome →
       (parse_smart_message t cats now).spentAt = some (now.subDays 1)) ∧
    (wordSearch "сегодня".toList (strip t) = none →
     wordSearch "вчера".toList (strip t) = none →
     (wordSearch "позавчера".toList (strip t)).isSome →
       (parse_smart_message t cats now).spentAt = some (now.subDays 2)) ∧
    (wordSearch "сегодня".toList (strip t) = none →
     wordSearch "вчера".toList (strip t) = none →
     wordSearch "позавчера".toList (strip t) = none →
       (parse_smart_message t cats now).spentAt = none) := by
  by_cases hemp : strip t = []
  · rw [hemp]
    have hw : ∀ needle : List Char, wordSearch needle [] = none := fun _ => rfl
    rw [parse_empty t cats now hemp]
    refine ⟨fun hs => ?_, fun _ hs => ?_, fun _ _ hs => ?_, fun _ _ _ => rfl⟩ <;>
      · rw [hw] at hs
        cases hs
  · rw [parse_nonempty t cats now hemp, draftStages_spentAt, if_pos hx]
    rcases h1 : wordSearch "сегодня".toList (strip t) with _ | i1 <;>
      rcases h2 : wordSearch "вчера".toList (strip t) with _ | i2 <;>
      rcases h3 : wordSearch "позавчера".toList (strip t) with _ | i3 <;>
      simp only [aliasStage, aliasScan, DATE_ALIASES, h1, h2, h3] <;> simp

/-- Witness for C5 (amended) on "поешь позавчера и вчера": "вчера" has
higher priority than "позавчера" even though it occurs later. -/
theorem alias_priority_order_witness :
    (parse_smart_message "позавчера и вчера".toList [] ⟨2024, 9, 5⟩).spentAt
      = some (Date.subDays ⟨2024, 9, 5⟩ 1) := by
  have h := alias_priority_order "позавчера и вчера".toList [] ⟨2024, 9, 5⟩ (by decide)
  exact h.2.1 (by decide) (by decide)

/-! ## C6: a future explicit date is discarded and the alias stage
decides; "01.01.2999" never becomes spentAt -/

/-- C6: when the first explicit `DD.MM.YYYY`/`DD.MM.YY` match (two-digit
years read as year + 2000) denotes a valid date after `now`, it is
discarded: spentAt is whatever the alias scan yields; concretely, from
"такси 2500 01.01.2999" no spentAt is extracted and the guided flow still
asks for the date. -/
theorem future_explicit_date_discarded (t : List Char) (cats : List Category) (now : Date)
    (i len d m y : Nat) (dv : Date)
    (hsearch : dateSearch (strip t) = some (i, len, d, m, y))
    (hmk : mkValidDate (if y < 100 then y + 2000 else y) m d = some dv)
    (hfut : Date.ble dv now = false) :
    ((parse_smart_message t cats now).spentAt = (aliasStage (strip t) now).1) ∧
    ((parse_smart_message "такси 2500 01.01.2999".toList [⟨1, "такси".toList⟩]
        ⟨2024, 9, 5⟩).spentAt = none ∧
     handle ⟨[⟨1, "такси".toList⟩], ⟨2024, 9, 5⟩, true⟩
         (.textMessage "такси 2500 01.01.2999".toList) initSession
       = (⟨.choosingDate,
           ⟨some 1, some "такси".toList, some 2500, none, some "01.01.2999".toList⟩⟩,
          .promptDate)) := by
  have hemp : strip t ≠ [] := by
    intro hcontra
    rw [hcontra] at hsearch
    cases hsearch
  have hx : (explicitDateStage (strip t) now).1 = none := by
    simp only [explicitDateStage, hsearch, hmk, hfut]
    simp
  refine ⟨?_, by decide⟩
  rw [parse_nonempty t cats now hemp, draftStages_spentAt, if_pos hx]

/-- Witness for C6: "обед 01.01.2999 вчера" has a future explicit date,
so the alias "вчера" decides spentAt. -/
theorem future_explicit_date_discarded_witness :
    (parse_smart_message "обед 01.01.2999 вчера".toList [] ⟨2024, 9, 5⟩).spentAt
      = (aliasStage (strip "обед 01.01.2999 вчера".toList) ⟨2024, 9, 5⟩).1 := by
  have h := future_explicit_date_discarded "обед 01.01.2999 вчера".toList [] ⟨2024, 9, 5⟩
    5 10 1 1 2999 ⟨2999, 1, 1⟩ (by decide) (by decide) (by decide)
  exact h.1

/-! ## C2: every reachable session has a positive amount and a
non-future spentAt -/

theorem inv_clear (td : Date) : SessionInv td clearSession := by
  constructor <;> intro x hx <;> simp [clearSession, emptyData] at hx

theorem parse_amount_field_pos (t : List Char) (cats : List Category) (now : Date) (v : ℚ)
    (h : (parse_smart_message t cats now).amount = some v) : 0 < v := by
  by_cases hemp : strip t = []
  · rw [parse_empty t cats now hemp] at h
    cases h
  · rw [parse_nonempty t cats now hemp, draftStages_amount] at h
    exact amountStage_pos _ _ h

theorem parse_spent_field_le (t : List Char) (cats : List Category) (now : Date) (d : Date)
    (hy : 1 ≤ now.year)
    (h : (parse_smart_message t cats now).spentAt = some d) : Date.ble d now = true := by
  by_cases hemp : strip t = []
  · rw [parse_empty t cats now hemp] at h
    cases h
  · rw [parse_nonempty t cats now hemp, draftStages_spentAt] at h
    by_cases hx : (explicitDateStage (strip t) now).1 = none
    · rw [if_pos hx] at h
      exact aliasStage_le _ _ _ hy h
    · rw [if_neg hx] at h
      exact explicitDateStage_le _ _ _ h

theorem inv_finalize (td : Date) (lk : Bool) (s : Session) (hs : SessionInv td s) :
    SessionInv td (finalize_expense lk s).1 := by
  unfold finalize_expense
  split
  · split
    · exact inv_clear td
    · exact hs
  · exact inv_clear td

theorem inv_descStep (td : Date) (lk : Bool) (d : SessionData)
    (h1 : ∀ a, d.amount = some a → 0 < a)
    (h2 : ∀ x, d.spentAt = some x → Date.ble x td = true) :
    SessionInv td (descStepOrFinalize lk d).1 := by
  simp only [descStepOrFinalize]
  cases hp : prefilledStripped d
  · exact ⟨h1, h2⟩
  · exact inv_finalize td lk _ ⟨h1, h2⟩

theorem inv_dateAccepted (ctx : Ctx) (td : Date) (dv : Date) (s : Session)
    (htd : Date.ble ctx.today td = true) (hdv : Date.ble dv ctx.today = true)
    (h1 : ∀ a, s.data.amount = some a → 0 < a) :
    SessionInv td (dateAccepted ctx dv s).1 := by
  simp only [dateAccepted]
  have h2 : ∀ x, (some dv = some (x : Date)) → Date.ble x td = true := by
    intro x hx
    cases hx
    exact ble_trans hdv htd
  split
  · exact inv_descStep td ctx.lookupOk _ h1 h2
  · exact ⟨h1, h2⟩

theorem inv_start (ctx : Ctx) (td : Date) : SessionInv td (start_add_expense_flow ctx).1 := by
  unfold start_add_expense_flow
  split
  · exact inv_clear td
  · exact inv_clear td

/-- One dispatch step preserves the invariant, provided the event's
current date is not after the observation date. -/
theorem handle_preserves_inv (ctx : Ctx) (e : Event) (s : Session) (td : Date)
    (htd : Date.ble ctx.today td = true) (hy : 1 ≤ ctx.today.year)
    (hs : SessionInv td s) : SessionInv td (handle ctx e s).1 := by
  obtain ⟨hamt, hspent⟩ := hs
  rcases s with ⟨st, data⟩
  cases e with
  | textMessage raw =>
    cases st with
    | idle =>
      show SessionInv td (smart_expense_input ctx raw ⟨.idle, data⟩).1
      simp only [smart_expense_input]
      by_cases h0 : strip raw = [] ∨ headIsSlash (strip raw) = true
      · rw [if_pos h0]
        exact ⟨hamt, hspent⟩
      · rw [if_neg h0]
        by_cases hall :
            (parse_smart_message (strip raw) ctx.categories ctx.today).category = none ∧
            (parse_smart_message (strip raw) ctx.categories ctx.today).spentAt = none ∧
            (parse_smart_message (strip raw) ctx.categories ctx.today).amount = none
        · rw [if_pos hall]
          exact ⟨hamt, hspent⟩
        · rw [if_neg hall]
          by_cases hc0 : ctx.categories = []
          · rw [if_pos hc0]
            exact inv_clear td
          · rw [if_neg hc0]
            have hA : ∀ a,
                (parse_smart_message (strip raw) ctx.categories ctx.today).amount = some a →
                0 < a := fun a ha => parse_amount_field_pos _ _ _ _ ha
            have hS : ∀ x,
                (parse_smart_message (strip raw) ctx.categories ctx.today).spentAt = some x →
                Date.ble x td = true :=
              fun x hx => ble_trans (parse_spent_field_le _ _ _ _ hy hx) htd
            by_cases hc : (parse_smart_message (strip raw) ctx.categories ctx.today).category = none
            · rw [if_pos hc]
              exact ⟨hA, hS⟩
            · rw [if_neg hc]
              by_cases hsp :
                  (parse_smart_message (strip raw) ctx.categories ctx.today).spentAt = none
              · rw [if_pos hsp]
                exact ⟨hA, hS⟩
              · rw [if_neg hsp]
                by_cases ham2 :
                    (parse_smart_message (strip raw) ctx.categories ctx.today).amount = none
                · rw [if_pos ham2]
                  exact ⟨hA, hS⟩
                · rw [if_neg ham2]
                  rcases hdesc :
                      (parse_smart_message (strip raw) ctx.categories ctx.today).description
                      with _ | dstr
                  · exact ⟨hA, hS⟩
                  · exact inv_finalize td ctx.lookupOk _ ⟨hA, hS⟩
    | choosingCategory => exact ⟨hamt, hspent⟩
    | choosingDate =>
      show SessionInv td (manual_date_entered ctx raw ⟨.choosingDate, data⟩).1
      simp only [manual_date_entered]
      split
      · exact ⟨hamt, hspent⟩
      · split
        · exact ⟨hamt, hspent⟩
        · rename_i dv hm
          split
          · rename_i hble
            exact inv_dateAccepted ctx td dv _ htd hble hamt
          · exact ⟨hamt, hspent⟩
    | enteringAmount =>
      show SessionInv td (amount_received ctx raw ⟨.enteringAmount, data⟩).1
      simp only [amount_received]
      split
      · exact ⟨hamt, hspent⟩
      · rename_i v hv
        exact inv_descStep td ctx.lookupOk _
          (fun a ha => by
            cases ha
            exact parse_amount_ok_pos raw _ hv)
          hspent
    | enteringDescription => exact inv_finalize td ctx.lookupOk _ ⟨hamt, hspent⟩
  | addCommand raw =>
    show SessionInv td (cmd_add ctx raw ⟨st, data⟩).1
    simp only [cmd_add]
    split
    · exact ⟨hamt, hspent⟩
    · exact inv_start ctx td
  | chooseCategory found =>
    cases st with
    | choosingCategory =>
      cases found with
      | none => exact ⟨hamt, hspent⟩
      | some cat =>
        show SessionInv td (category_chosen ctx (some cat) ⟨.choosingCategory, data⟩).1
        simp only [category_chosen]
        split
        · split
          · exact inv_descStep td ctx.lookupOk _ hamt hspent
          · exact ⟨hamt, hspent⟩
        · exact ⟨hamt, hspent⟩
    | idle => exact ⟨hamt, hspent⟩
    | choosingDate => exact ⟨hamt, hspent⟩
    | enteringAmount => exact ⟨hamt, hspent⟩
    | enteringDescription => exact ⟨hamt, hspent⟩
  | pickDate parsed =>
    cases st with
    | choosingDate =>
      cases parsed with
      | none => exact ⟨hamt, hspent⟩
      | some dv =>
        show SessionInv td (date_selected ctx (some dv) ⟨.choosingDate, data⟩).1
        simp only [date_selected]
        split
        · rename_i hble
          exact inv_dateAccepted ctx td dv _ htd hble hamt
        · exact ⟨hamt, hspent⟩
    | idle => exact ⟨hamt, hspent⟩
    | choosingCategory => exact ⟨hamt, hspent⟩
    | enteringAmount => exact ⟨hamt, hspent⟩
    | enteringDescription => exact ⟨hamt, hspent⟩
  | skipDescr =>
    cases st with
    | enteringDescription => exact inv_finalize td ctx.lookupOk _ ⟨hamt, hspent⟩
    | idle => exact ⟨hamt, hspent⟩
    | choosingCategory => exact ⟨hamt, hspent⟩
    | choosingDate => exact ⟨hamt, hspent⟩
    | enteringAmount => exact ⟨hamt, hspent⟩
  | restartFlow => exact inv_start ctx td
  | cancelFlow => exact inv_clear td

theorem runTrace_inv (tr : List (Ctx × Event)) (td : Date) (s : Session)
    (h : ∀ p ∈ tr, Date.ble p.1.today td = true ∧ 1 ≤ p.1.today.year)
    (hs : SessionInv td s) : SessionInv td (runTrace tr s) := by
  induction tr generalizing s with
  | nil => exact hs
  | cons p rest ih =>
    rcases p with ⟨c, e⟩
    have hp := h ⟨c, e⟩ (List.mem_cons_self _ _)
    exact ih _ (fun q hq => h q (List.mem_cons_of_mem _ hq))
      (handle_preserves_inv c e s td hp.1 hp.2 ⟨hs.1, hs.2⟩)

/-- C2: in every session reachable by any event trace whose event dates
are not after the observation date `td` (and are proper calendar years),
a stored amount is strictly positive and a stored spentAt is not later
than `td`: every write of an amount goes through the extractor's or
`parse_amount`'s positivity check and every write of spentAt through a
future-date guard. -/
theorem session_invariant_reachable (tr : List (Ctx × Event)) (td : Date)
    (h : ∀ p ∈ tr, Date.ble p.1.today td = true ∧ 1 ≤ p.1.today.year) :
    SessionInv td (runTrace tr initSession) :=
  runTrace_inv tr td initSession h (inv_clear td)

/-- Witness for C2: a two-step trace (smart input with amount and
yesterday's date, then a quick-pick of the same day) keeps the invariant. -/
theorem session_invariant_reachable_witness :
    SessionInv ⟨2024, 9, 6⟩
      (runTrace
        [(⟨[⟨1, "такси".toList⟩], ⟨2024, 9, 5⟩, true⟩,
            .textMessage "такси 2500 вчера".toList),
         (⟨[⟨1, "такси".toList⟩], ⟨2024, 9, 5⟩, true⟩, .pickDate (some ⟨2024, 9, 4⟩))]
        initSession) :=
  session_invariant_reachable _ ⟨2024, 9, 6⟩ (by decide)

/-! ## C8: `parse_amount` against the extractor's amount rule -/

/-- Counterexample to C8 as stated: on "12.345" the guided parser accepts
the whole `Decimal` literal 12.345, while the extractor's token rule
(at most two fraction digits) recognizes the amount 12 — the two accept
different values, so they are not equivalent on every string. -/
theorem parse_amount_extractor_disagree :
    parse_amount "12.345".toList = .ok (mkRat 2469 200) ∧
    (amountStage "12.345".toList).1 = some 12 ∧ mkRat 2469 200 ≠ (12 : ℚ) := by
  decide

theorem digit_ne_special (c : Char) (h : isDigitC c = true) :
    c ≠ '+' ∧ c ≠ '-' ∧ c ≠ '.' ∧ c ≠ ',' := by
  refine ⟨fun hc => ?_, fun hc => ?_, fun hc => ?_, fun hc => ?_⟩ <;>
    · subst hc
      exact absurd h (by decide)

theorem map_comma_id_of_digits (l : List Char) (h : ∀ c ∈ l, isDigitC c = true) :
    l.map (fun c => if c = ',' then '.' else c) = l := by
  induction l with
  | nil => rfl
  | cons c t ih =>
    have hc := digit_ne_special c (h c (List.mem_cons_self _ _))
    simp only [List.map_cons, if_neg hc.2.2.2,
      ih (fun x hx => h x (List.mem_cons_of_mem _ hx))]

theorem takeWhile_all_append (p : Char → Bool) (l r : List Char)
    (hl : ∀ c ∈ l, p c = true) :
    (l ++ r).takeWhile p = l ++ r.takeWhile p := by
  induction l with
  | nil => rfl
  | cons c t ih =>
    rw [List.cons_append, List.takeWhile_cons, if_pos (hl c (List.mem_cons_self _ _)),
      ih (fun x hx => hl x (List.mem_cons_of_mem _ hx))]
    rfl

theorem signSplit_of_digit (c : Char) (r : List Char) (h : isDigitC c = true) :
    signSplit (c :: r) = (false, c :: r) := by
  have hc := digit_ne_special c h
  simp [signSplit, hc.1, hc.2.1]

/-- `amountTokenAt` on a bare digit run followed by nothing or by a
space. -/
theorem amountTokenAt_bare (ds tail : List Char) (hne : ds ≠ [])
    (hd : ∀ c ∈ ds, isDigitC c = true)
    (ht : tail = [] ∨ ∃ r, tail = ' ' :: r) :
    amountTokenAt (ds ++ tail) = some (ds.length, ds, []) := by
  have hspd : isDigitC ' ' = false := by decide
  have htw : (ds ++ tail).takeWhile isDigitC = ds := by
    rcases ht with rfl | ⟨r, rfl⟩
    · simp [List.takeWhile_eq_self_iff.mpr hd]
    · rw [takeWhile_all_append _ _ _ hd]
      simp [List.takeWhile_cons, hspd]
  simp only [amountTokenAt, htw, if_neg hne, List.drop_left]
  rcases ht with rfl | ⟨r, rfl⟩
  · rfl
  · simp

/-- `amountTokenAt` on a digit run, a separator, and one or two fraction
digits, followed by nothing or by a space. -/
theorem amountTokenAt_sep (ds fs tail : List Char) (sep : Char) (hne : ds ≠ [])
    (hd : ∀ c ∈ ds, isDigitC c = true) (hsep : sep = '.' ∨ sep = ',')
    (hf : ∀ c ∈ fs, isDigitC c = true) (hflen : fs.length = 1 ∨ fs.length = 2)
    (ht : tail = [] ∨ ∃ r, tail = ' ' :: r) :
    amountTokenAt (ds ++ sep :: (fs ++ tail)) = some (ds.length + 1 + fs.length, ds, fs) := by
  have hsd : isDigitC sep = false := by rcases hsep with rfl | rfl <;> decide
  have htw : (ds ++ sep :: (fs ++ tail)).takeWhile isDigitC = ds := by
    rw [takeWhile_all_append _ _ _ hd]
    simp [List.takeWhile_cons, hsd]
  have hspd : isDigitC ' ' = false := by decide
  have htf : (fs ++ tail).takeWhile isDigitC = fs := by
    rcases ht with rfl | ⟨r, rfl⟩
    · simp [List.takeWhile_eq_self_iff.mpr hf]
    · rw [takeWhile_all_append _ _ _ hf]
      simp [List.takeWhile_cons, hspd]
  simp only [amountTokenAt, htw, if_neg hne, List.drop_left, if_pos hsep, htf,
    if_pos hflen]

theorem amountSearch_at_head (t : List Char) (len : Nat) (ds fs : List Char)
    (h : amountTokenAt t = some (len, ds, fs)) :
    amountSearch t = some (0, len, ds, fs) := by
  cases t with
  | nil =>
    rw [show amountTokenAt ([] : List Char) = none from rfl] at h
    cases h
  | cons c r =>
    show amountSearchAux false 0 (c :: r) = _
    simp only [amountSearchAux, Bool.false_eq_true, if_neg, ite_false, h]

theorem parseDecimal_bare_token (ds : List Char)
    (hne : ds ≠ []) (hd : ∀ c ∈ ds, isDigitC c = true) :
    parseDecimal ds = some (amountVal ds []) := by
  have hsplit : signSplit ds = (false, ds) := by
    cases ds with
    | nil => exact absurd rfl hne
    | cons c r => exact signSplit_of_digit c r (hd c (List.mem_cons_self _ _))
  simp only [parseDecimal, hsplit, List.takeWhile_eq_self_iff.mpr hd, List.drop_length]
  simp [amountVal, hne]

theorem parseDecimal_sep_token (ds fs : List Char)
    (hne : ds ≠ []) (hd : ∀ c ∈ ds, isDigitC c = true)
    (hf : ∀ c ∈ fs, isDigitC c = true) (hfne : fs ≠ []) :
    parseDecimal (ds ++ '.' :: fs) = some (amountVal ds fs) := by
  have hsplit : signSplit (ds ++ '.' :: fs) = (false, ds ++ '.' :: fs) := by
    cases ds with
    | nil => exact absurd rfl hne
    | cons c r =>
      exact signSplit_of_digit c (r ++ '.' :: fs) (hd c (List.mem_cons_self _ _))
  have htw : (ds ++ '.' :: fs).takeWhile isDigitC = ds := by
    rw [takeWhile_all_append _ _ _ hd, List.takeWhile_cons]
    rw [if_neg (by decide : ¬(isDigitC '.' = true))]
    simp
  have htf : fs.takeWhile isDigitC = fs := List.takeWhile_eq_self_iff.mpr hf
  simp only [parseDecimal, hsplit, htw, List.drop_left, htf, List.drop_length]
  simp [amountVal, hne, hfne]

/-- C8 (amended): the spec's equivalence between `parse_amount` and the
extractor's amount rule holds on inputs that strip to exactly one token of
the extractor's shape `\d+([.,]\d{1,2})?`: both accept with the same value
when the token's value is positive and both reject/ignore it otherwise.
(On general strings the equivalence fails — `parse_amount` accepts any
`Decimal` literal.)  The claimed re-prompt/store/transition behavior of
the amount step, however, is not implemented: typed text at the amount
step is consumed by the first-registered catch-all text handler, which
returns with no reply and no session change (`amount_received` never runs
on typed text). -/
theorem amount_rule_agreement_and_amount_step_shadowed (raw : List Char) (s : Session)
    (ctx : Ctx) (ds fs : List Char) (sep : Char)
    (hne : ds ≠ []) (hd : ∀ c ∈ ds, isDigitC c = true)
    (hf : ∀ c ∈ fs, isDigitC c = true)
    (hshape : (strip raw = ds ∧ fs = []) ∨
              ((sep = '.' ∨ sep = ',') ∧ strip raw = ds ++ sep :: fs ∧
               (fs.length = 1 ∨ fs.length = 2)))
    (hstep : s.step = .enteringAmount) :
    ((0 < amountVal ds fs →
        parse_amount raw = .ok (amountVal ds fs) ∧
        (amountStage (strip raw)).1 = some (amountVal ds fs)) ∧
     (amountVal ds fs ≤ 0 →
        parse_amount raw = .error AMOUNT_NOT_POSITIVE ∧
        (amountStage (strip raw)).1 = none)) ∧
    dispatchText ctx raw s = (s, .noReply) := by
  have hdec : parseDecimal ((strip raw).map (fun c => if c = ',' then '.' else c))
      = some (amountVal ds fs) := by
    rcases hshape with ⟨hst, rfl⟩ | ⟨hsep, hst, hflen⟩
    · rw [hst, map_comma_id_of_digits ds hd]
      exact parseDecimal_bare_token ds hne hd
    · rw [hst]
      have hmap : (ds ++ sep :: fs).map (fun c => if c = ',' then '.' else c)
          = ds ++ '.' :: fs := by
        rw [List.map_append, List.map_cons, map_comma_id_of_digits ds hd,
          map_comma_id_of_digits fs hf]
        rcases hsep with rfl | rfl <;> simp
      rw [hmap]
      have hfne : fs ≠ [] := by
        intro hcontra
        rw [hcontra] at hflen
        simp at hflen
      exact parseDecimal_sep_token ds fs hne hd hf hfne
  have hstok : amountTokenAt (strip raw)
      = some ((strip raw).length, ds, fs) := by
    rcases hshape with ⟨hst, rfl⟩ | ⟨hsep, hst, hflen⟩
    · rw [hst]
      have := amountTokenAt_bare ds [] hne hd (Or.inl rfl)
      simpa using this
    · rw [hst]
      have := amountTokenAt_sep ds fs [] sep hne hd hsep hf hflen (Or.inl rfl)
      simp only [List.append_nil] at this
      rw [this]
      simp [List.length_append]
      omega
  have hsearch := amountSearch_at_head _ _ _ _ hstok
  have hstrip_ne : strip raw ≠ [] := by
    rcases hshape with ⟨hst, _⟩ | ⟨_, hst, _⟩ <;> rw [hst] <;> simp [hne]
  have hmapne : (strip raw).map (fun c => if c = ',' then '.' else c) ≠ [] := by
    simpa using hstrip_ne
  constructor
  · constructor
    · intro hpos
      constructor
      · simp only [parse_amount, if_neg hmapne, hdec]
        rw [if_neg (not_le.mpr hpos)]
      · simp only [amountStage, hsearch, if_pos hpos]
    · intro hle
      constructor
      · simp only [parse_amount, if_neg hmapne, hdec]
        rw [if_pos hle]
      · simp only [amountStage, hsearch, if_neg (not_lt.mpr hle)]
  · rcases s with ⟨st, data⟩
    cases hstep
    simp [dispatchText]

/-! ## Character-level facts -/

theorem char_eq_iff_toNat {a b : Char} : a = b ↔ a.toNat = b.toNat :=
  ⟨fun h => by rw [h], fun h => Char.ext (UInt32.ext h)⟩

theorem uint32_le_iff (a b : UInt32) : a ≤ b ↔ a.toNat ≤ b.toNat := by
  rw [UInt32.le_def, BitVec.le_def]
  rfl

theorem char_le_iff_toNat {a b : Char} : a ≤ b ↔ a.toNat ≤ b.toNat := by
  rw [Char.le_def, uint32_le_iff]
  rfl

theorem isWordC_iff (c : Char) : isWordC c = true ↔
    (65 ≤ c.toNat ∧ c.toNat ≤ 90) ∨ (97 ≤ c.toNat ∧ c.toNat ≤ 122) ∨
    (48 ≤ c.toNat ∧ c.toNat ≤ 57) ∨ c.toNat = 95 ∨
    (1024 ≤ c.toNat ∧ c.toNat ≤ 1279) := by
  simp only [isWordC, Char.isAlpha, Char.isUpper, Char.isLower, Char.isDigit,
    Bool.or_eq_true, Bool.and_eq_true, decide_eq_true_eq, ge_iff_le, uint32_le_iff,
    char_le_iff_toNat, char_eq_iff_toNat, Char.toNat,
    show ((65 : UInt32).toNat = 65) from rfl, show ((90 : UInt32).toNat = 90) from rfl,
    show ((97 : UInt32).toNat = 97) from rfl, show ((122 : UInt32).toNat = 122) from rfl,
    show ((48 : UInt32).toNat = 48) from rfl, show ((57 : UInt32).toNat = 57) from rfl,
    show ('_'.val.toNat = 95) from rfl]
  omega

theorem isDigitC_iff (c : Char) : isDigitC c = true ↔ 48 ≤ c.toNat ∧ c.toNat ≤ 57 := by
  simp only [isDigitC, Char.isDigit, Bool.and_eq_true, decide_eq_true_eq, ge_iff_le,
    uint32_le_iff, Char.toNat,
    show ((48 : UInt32).toNat = 48) from rfl, show ((57 : UInt32).toNat = 57) from rfl]

theorem isSpaceC_iff (c : Char) : isSpaceC c = true ↔
    c.toNat = 32 ∨ c.toNat = 9 ∨ c.toNat = 10 ∨ c.toNat = 13 ∨
    c.toNat = 11 ∨ c.toNat = 12 := by
  simp only [isSpaceC, Bool.or_eq_true, decide_eq_true_eq, char_eq_iff_toNat,
    show (' '.toNat = 32) from rfl, show ('\t'.toNat = 9) from rfl,
    show ('\n'.toNat = 10) from rfl, show ('\r'.toNat = 13) from rfl]
  omega

theorem toNat_ofNat_valid (m : Nat) (h : m < 55296) : (Char.ofNat m).toNat = m := by
  unfold Char.ofNat
  rw [dif_pos (Or.inl h)]
  simp [Char.ofNatAux, Char.toNat, UInt32.toNat, UInt32.ofNatCore]

theorem lowerC_toNat (c : Char) : (lowerC c).toNat =
    (if 65 ≤ c.toNat ∧ c.toNat ≤ 90 then c.toNat + 32
     else if 1040 ≤ c.toNat ∧ c.toNat ≤ 1071 then c.toNat + 32
     else if c.toNat = 1025 then 1105
     else c.toNat) := by
  have hAZ : ('A' ≤ c && c ≤ 'Z') = true ↔ (65 ≤ c.toNat ∧ c.toNat ≤ 90) := by
    simp [Bool.and_eq_true, decide_eq_true_eq, char_le_iff_toNat,
      show ('A'.toNat = 65) from rfl, show ('Z'.toNat = 90) from rfl]
  have hCy : (1040 ≤ c.toNat && c.toNat ≤ 1071) = true ↔
      (1040 ≤ c.toNat ∧ c.toNat ≤ 1071) := by
    simp [Bool.and_eq_true, decide_eq_true_eq]
  unfold lowerC
  by_cases h1 : 65 ≤ c.toNat ∧ c.toNat ≤ 90
  · rw [if_pos (hAZ.mpr h1), if_pos h1, toNat_ofNat_valid _ (by omega)]
  · rw [if_neg (fun hc => h1 (hAZ.mp hc)), if_neg h1]
    by_cases h2 : 1040 ≤ c.toNat ∧ c.toNat ≤ 1071
    · rw [if_pos (hCy.mpr h2), if_pos h2, toNat_ofNat_valid _ (by omega)]
    · rw [if_neg (fun hc => h2 (hCy.mp hc)), if_neg h2]
      by_cases h3 : c.toNat = 1025
      · rw [if_pos h3, if_pos h3, toNat_ofNat_valid _ (by omega)]
      · rw [if_neg h3, if_neg h3]

theorem bool_eq_of_iff {a b : Bool} (h : (a = true) ↔ (b = true)) : a = b := by
  cases a <;> cases b <;> simp_all

theorem isWordC_lowerC (c : Char) : isWordC (lowerC c) = isWordC c := by
  apply bool_eq_of_iff
  rw [isWordC_iff, isWordC_iff, lowerC_toNat]
  split_ifs <;> omega

theorem isDigitC_lowerC (c : Char) : isDigitC (lowerC c) = isDigitC c := by
  apply bool_eq_of_iff
  rw [isDigitC_iff, isDigitC_iff, lowerC_toNat]
  split_ifs <;> omega

theorem space_not_word (c : Char) (h : isSpaceC c = true) : isWordC c = false := by
  cases hw : isWordC c
  · rfl
  · exact absurd ((isWordC_iff c).mp hw) (by have := (isSpaceC_iff c).mp h; omega)

theorem word_not_space (c : Char) (h : isWordC c = true) : isSpaceC c = false := by
  cases hs : isSpaceC c
  · rfl
  · exact absurd ((isSpaceC_iff c).mp hs) (by have := (isWordC_iff c).mp h; omega)

theorem digit_not_space (c : Char) (h : isDigitC c = true) : isSpaceC c = false := by
  cases hs : isSpaceC c
  · rfl
  · exact absurd ((isSpaceC_iff c).mp hs) (by have := (isDigitC_iff c).mp h; omega)

theorem lower_ne_of_word_nonword (t n : Char) (ht : isWordC t = false)
    (hn : isWordC n = true) : lowerC t ≠ lowerC n := by
  intro h
  have h2 : isWordC (lowerC t) = isWordC (lowerC n) := by rw [h]
  rw [isWordC_lowerC, isWordC_lowerC, ht, hn] at h2
  cases h2

theorem lower_ne_of_digit_nondigit (t n : Char) (ht : isDigitC t = true)
    (hn : isDigitC n = false) : lowerC t ≠ lowerC n := by
  intro h
  have h2 : isDigitC (lowerC t) = isDigitC (lowerC n) := by rw [h]
  rw [isDigitC_lowerC, isDigitC_lowerC, ht, hn] at h2
  cases h2

theorem digit_is_word (c : Char) (h : isDigitC c = true) : isWordC c = true := by
  rw [isWordC_iff]
  have := (isDigitC_iff c).mp h
  omega

/-! ## Whole-word search: matches of an all-word needle are aligned to
word runs -/

theorem consumeLower_self_word (n rest : List Char) (lw : Bool) (hne : n ≠ [])
    (hw : ∀ c ∈ n, isWordC c = true) :
    consumeLower n (n ++ rest) lw = some (true, rest) := by
  induction n generalizing lw with
  | nil => exact absurd rfl hne
  | cons c t ih =>
    show consumeLower (c :: t) (c :: (t ++ rest)) lw = _
    simp only [consumeLower, if_pos rfl]
    cases t with
    | nil =>
      simp [List.nil_append, consumeLower, hw c (List.mem_cons_self _ _)]
    | cons d u =>
      rw [hw c (List.mem_cons_self _ _)]
      exact ih true (by simp) (fun x hx => hw x (List.mem_cons_of_mem _ hx))

theorem matchWordAt_self (n rest : List Char) (hne : n ≠ [])
    (hw : ∀ c ∈ n, isWordC c = true) (hrest : headWordB rest = false) :
    matchWordAt n false (n ++ rest) = true := by
  cases n with
  | nil => exact absurd rfl hne
  | cons c t =>
    show matchWordAt (c :: t) false ((c :: t) ++ rest) = true
    rw [List.cons_append]
    simp only [matchWordAt]
    rw [if_neg (by rw [hw c (List.mem_cons_self _ _)]; simp)]
    rw [show (c :: (t ++ rest)) = (c :: t) ++ rest from rfl,
      consumeLower_self_word _ _ _ hne hw]
    simp [hrest]

theorem consume_word_run (ns : List Char) (A T : List Char) (lw2 : Bool) (rest : List Char)
    (hns : ∀ c ∈ ns, isWordC c = true) (hA : ∀ c ∈ A, isWordC c = true)
    (hT : headWordB T = false)
    (hc : consumeLower ns (A ++ T) true = some (lw2, rest))
    (hend : ¬(lw2 = headWordB rest)) :
    A.map lowerC = ns.map lowerC := by
  induction ns generalizing A with
  | nil =>
    simp only [consumeLower] at hc
    cases hc
    cases A with
    | nil => rfl
    | cons a A' =>
      exfalso
      apply hend
      show true = headWordB ((a :: A') ++ T)
      rw [List.cons_append]
      show true = isWordC a
      rw [hA a (List.mem_cons_self _ _)]
  | cons n ns' ih =>
    cases A with
    | nil =>
      exfalso
      rw [List.nil_append] at hc
      cases T with
      | nil => simp [consumeLower] at hc
      | cons t T' =>
        have htw : isWordC t = false := hT
        have hnw : isWordC n = true := hns n (List.mem_cons_self _ _)
        simp only [consumeLower, if_neg (lower_ne_of_word_nonword t n htw hnw)] at hc
        exact Option.noConfusion hc
    | cons a A' =>
      rw [List.cons_append] at hc
      simp only [consumeLower] at hc
      split at hc
      · rename_i heq
        rw [hA a (List.mem_cons_self _ _)] at hc
        have := ih A' (fun x hx => hns x (List.mem_cons_of_mem _ hx))
          (fun x hx => hA x (List.mem_cons_of_mem _ hx)) hc
        simp only [List.map_cons, heq, this]
      · cases hc

theorem matchWordAt_word_run (needle A T : List Char) (prevW : Bool)
    (hne : needle ≠ []) (hw : ∀ c ∈ needle, isWordC c = true)
    (hA : ∀ c ∈ A, isWordC c = true) (hT : headWordB T = false)
    (h : matchWordAt needle prevW (A ++ T) = true) :
    prevW = false ∧ A.map lowerC = needle.map lowerC := by
  cases needle with
  | nil => exact absurd rfl hne
  | cons n ns =>
    cases A with
    | nil =>
      exfalso
      rw [List.nil_append] at h
      cases T with
      | nil => simp [matchWordAt] at h
      | cons t T' =>
        have htw : isWordC t = false := hT
        have hnw : isWordC n = true := hw n (List.mem_cons_self _ _)
        simp only [matchWordAt] at h
        split at h
        · cases h
        · simp only [consumeLower, if_neg (lower_ne_of_word_nonword t n htw hnw)] at h
          cases h
    | cons a A' =>
      rw [List.cons_append] at h
      simp only [matchWordAt] at h
      split at h
      · cases h
      · rename_i hbp
        have haw : isWordC a = true := hA a (List.mem_cons_self _ _)
        have hpw : prevW = false := by
          rw [haw] at hbp
          cases prevW
          · rfl
          · exact absurd rfl hbp
        refine ⟨hpw, ?_⟩
        rcases hcm : consumeLower (n :: ns) (a :: (A' ++ T)) false with _ | ⟨lw2, rest⟩ <;>
          rw [hcm] at h
        · cases h
        · simp only [consumeLower] at hcm
          split at hcm
          · rename_i heq
            rw [haw] at hcm
            have hend : ¬(lw2 = headWordB rest) := by
              intro hcontra
              rw [hcontra] at h
              simp at h
            have := consume_word_run ns A' T lw2 rest
              (fun x hx => hw x (List.mem_cons_of_mem _ hx))
              (fun x hx => hA x (List.mem_cons_of_mem _ hx)) hT hcm hend
            simp only [List.map_cons, heq, this]
          · cases hcm

theorem wordSearchAux_skip_run (needle A T : List Char) (idx : Nat) (pw : Bool)
    (hne : needle ≠ []) (hw : ∀ c ∈ needle, isWordC c = true)
    (hA : ∀ c ∈ A, isWordC c = true) (hT : headWordB T = false)
    (hcase : pw = true ∨ A.map lowerC ≠ needle.map lowerC) :
    wordSearchAux needle pw idx (A ++ T)
      = wordSearchAux needle (if A = [] then pw else true) (idx + A.length) T := by
  induction A generalizing idx pw with
  | nil => simp
  | cons a A' ih =>
    have hm : matchWordAt needle pw (a :: (A' ++ T)) = false := by
      cases hmm : matchWordAt needle pw (a :: (A' ++ T))
      · rfl
      · exfalso
        obtain ⟨hpw, hmap⟩ := matchWordAt_word_run needle (a :: A') T pw hne hw hA hT hmm
        rcases hcase with h1 | h1
        · rw [h1] at hpw
          cases hpw
        · exact h1 hmap
    rw [List.cons_append]
    simp only [wordSearchAux]
    rw [hm]
    rw [if_neg (by decide : ¬(false = true))]
    have haw : isWordC a = true := hA a (List.mem_cons_self _ _)
    rw [haw]
    rw [ih (idx + 1) true (fun x hx => hA x (List.mem_cons_of_mem _ hx)) (Or.inl rfl),
      ite_self]
    have hlen : idx + 1 + A'.length = idx + (a :: A').length := by
      simp only [List.length_cons]
      omega
    rw [hlen]
    simp [List.cons_ne_nil]

theorem wordSearchAux_skip_mismatch (n : Char) (ns p T : List Char) (idx : Nat) (pw : Bool)
    (hmis : ∀ c ∈ p, lowerC c ≠ lowerC n) :
    wordSearchAux (n :: ns) pw idx (p ++ T)
      = wordSearchAux (n :: ns) (p.foldl (fun _ c => isWordC c) pw) (idx + p.length) T := by
  induction p generalizing idx pw with
  | nil => simp
  | cons a p' ih =>
    have hm : matchWordAt (n :: ns) pw (a :: (p' ++ T)) = false := by
      simp only [matchWordAt]
      split
      · rfl
      · simp only [consumeLower, if_neg (hmis a (List.mem_cons_self _ _))]
    rw [List.cons_append]
    simp only [wordSearchAux]
    rw [hm]
    rw [if_neg (by decide : ¬(false = true))]
    rw [ih (idx + 1) (isWordC a) (fun x hx => hmis x (List.mem_cons_of_mem _ hx))]
    rw [List.foldl_cons]
    congr 1
    simp only [List.length_cons]
    omega

/-! ## A date match needs two dots; no-digit prefixes are skipped -/

theorem takeWhile_append_drop_self (p : Char → Bool) (l : List Char) :
    l.takeWhile p ++ l.drop (l.takeWhile p).length = l := by
  conv_rhs => rw [← List.take_append_drop (l.takeWhile p).length l]
  congr 1
  exact List.prefix_iff_eq_take.mp (List.takeWhile_prefix p)

theorem count_dot_zero (l : List Char) (h : ∀ c ∈ l, isDigitC c = true) :
    l.count '.' = 0 :=
  List.count_eq_zero.mpr (fun hmem => (digit_ne_special '.' (h '.' hmem)).2.2.1 rfl)

theorem dateTokenAt_two_dots (l : List Char) (x : Nat × Nat × Nat × Nat)
    (h : dateTokenAt l = some x) : 2 ≤ l.count '.' := by
  simp only [dateTokenAt] at h
  split at h
  · cases h
  · split at h
    · rename_i c1 r1 hd1
      split at h
      · cases h
      · rename_i hc1
        have hc1' : c1 = '.' := by
          by_contra hcc
          exact hc1 hcc
        split at h
        · cases h
        · split at h
          · rename_i c2 r2 hd2
            split at h
            · cases h
            · rename_i hc2
              have hc2' : c2 = '.' := by
                by_contra hcc
                exact hc2 hcc
              have hl : l.count '.' =
                  (l.takeWhile isDigitC).count '.' + (c1 :: r1).count '.' := by
                conv_lhs => rw [← takeWhile_append_drop_self isDigitC l, hd1]
                rw [List.count_append]
              have hr1 : r1.count '.' =
                  (r1.takeWhile isDigitC).count '.' + (c2 :: r2).count '.' := by
                conv_lhs => rw [← takeWhile_append_drop_self isDigitC r1, hd2]
                rw [List.count_append]
              have h0 : (l.takeWhile isDigitC).count '.' = 0 :=
                count_dot_zero _ (fun c hc => List.mem_takeWhile_imp hc)
              have h0' : (r1.takeWhile isDigitC).count '.' = 0 :=
                count_dot_zero _ (fun c hc => List.mem_takeWhile_imp hc)
              rw [hl, h0, List.count_cons, hr1, h0', List.count_cons, hc1', hc2']
              simp
          · cases h
    · cases h

theorem dateSearchAux_none_of_dots (t : List Char) (pw : Bool) (idx : Nat)
    (h : t.count '.' < 2) : dateSearchAux pw idx t = none := by
  induction t generalizing pw idx with
  | nil => rfl
  | cons c r ih =>
    have htok : (if pw = true then none else dateTokenAt (c :: r)) = none := by
      split
      · rfl
      · cases hdt : dateTokenAt (c :: r) with
        | none => rfl
        | some x => exact absurd (dateTokenAt_two_dots _ _ hdt) (by omega)
    simp only [dateSearchAux, htok]
    refine ih _ _ ?_
    have := List.count_cons '.' c r
    omega

theorem explicitDateStage_of_dots (t : List Char) (now : Date) (h : t.count '.' < 2) :
    explicitDateStage t now = (none, []) := by
  have hds : dateSearch t = none := dateSearchAux_none_of_dots t false 0 h
  simp [explicitDateStage, hds]

theorem amountSearchAux_skip (p rest : List Char) (idx : Nat)
    (hp : ∀ c ∈ p, isDigitC c = false) :
    amountSearchAux false idx (p ++ rest) = amountSearchAux false (idx + p.length) rest := by
  induction p generalizing idx with
  | nil => simp
  | cons a p' ih =>
    have hna : isDigitC a = false := hp a (List.mem_cons_self _ _)
    have htok : amountTokenAt (a :: (p' ++ rest)) = none := by
      simp only [amountTokenAt, List.takeWhile_cons, hna]
      simp
    rw [List.cons_append]
    simp only [amountSearchAux, Bool.false_eq_true, if_neg, ite_false, htok, hna]
    rw [ih (idx + 1) (fun x hx => hp x (List.mem_cons_of_mem _ hx))]
    congr 1
    simp only [List.length_cons]
    omega

theorem amountSearchAux_at_head (t : List Char) (idx len : Nat) (ds fs : List Char)
    (h : amountTokenAt t = some (len, ds, fs)) :
    amountSearchAux false idx t = some (idx, len, ds, fs) := by
  cases t with
  | nil =>
    rw [show amountTokenAt ([] : List Char) = none from rfl] at h
    cases h
  | cons c r =>
    simp only [amountSearchAux, Bool.false_eq_true, if_neg, ite_false, h]

/-! ## Category list facts -/

theorem mem_insertByLen {a c : Category} {l : List Category} :
    a ∈ insertByLen c l ↔ a = c ∨ a ∈ l := by
  induction l with
  | nil => simp [insertByLen]
  | cons d ds ih =>
    simp only [insertByLen]
    split
    · simp [List.mem_cons]
    · rw [List.mem_cons, ih, List.mem_cons]
      tauto

theorem mem_sortCatsDesc {a : Category} {l : List Category} :
    a ∈ sortCatsDesc l ↔ a ∈ l := by
  induction l with
  | nil => simp [sortCatsDesc]
  | cons c cs ih =>
    show a ∈ insertByLen c (sortCatsDesc cs) ↔ _
    rw [mem_insertByLen, ih, List.mem_cons]

theorem catScan_ne_none (t : List Char) (l : List Category) (c : Category)
    (hmem : c ∈ l) (hfind : wordSearch c.name t ≠ none) :
    (catScan t l).1 ≠ none := by
  induction l with
  | nil => cases hmem
  | cons d rest ih =>
    rcases hw : wordSearch d.name t with _ | i <;> simp only [catScan, hw]
    · rcases List.mem_cons.mp hmem with rfl | h2
      · exact absurd hw hfind
      · exact ih h2
    · simp

theorem categoryStage_ne_none (cats : List Category) (t : List Char) (c : Category)
    (hmem : c ∈ cats) (hfind : wordSearch c.name t ≠ none) :
    (categoryStage cats t).1 ≠ none :=
  catScan_ne_none t _ c (mem_sortCatsDesc.mpr hmem) hfind

/-! ## `strip` is the identity on texts with non-space ends -/

theorem dropWhile_eq_self_head (p : Char → Bool) (l : List Char)
    (h : ∀ c r, l = c :: r → p c = false) : l.dropWhile p = l := by
  cases l with
  | nil => rfl
  | cons c r => rw [List.dropWhile_cons, if_neg (by simp [h c r rfl])]

theorem strip_eq_self (l : List Char)
    (h1 : ∀ c r, l = c :: r → isSpaceC c = false)
    (h2 : ∀ c r, l.reverse = c :: r → isSpaceC c = false) : strip l = l := by
  unfold strip
  rw [dropWhile_eq_self_head _ _ h1, dropWhile_eq_self_head _ _ h2, List.reverse_reverse]

theorem getLast?_digit_of_rev (l : List Char) (c : Char) (r : List Char)
    (hall : ∀ x ∈ l, isDigitC x = true) (h : l.reverse = c :: r) :
    isDigitC c = true := by
  have : c ∈ l.reverse := by rw [h]; exact List.mem_cons_self _ _
  exact hall c (List.mem_reverse.mp this)

theorem mem_of_getLast? {l : List Char} {c : Char} (h : l.getLast? = some c) : c ∈ l := by
  rw [← List.head?_reverse] at h
  cases hrev : l.reverse with
  | nil =>
    rw [hrev] at h
    cases h
  | cons d r =>
    rw [hrev] at h
    cases h
    exact List.mem_reverse.mp (hrev ▸ List.mem_cons_self _ _)

theorem count_dot_zero_word (l : List Char) (h : ∀ c ∈ l, isWordC c = true) :
    l.count '.' = 0 := by
  refine List.count_eq_zero.mpr (fun hmem => ?_)
  have := (isWordC_iff '.').mp (h '.' hmem)
  revert this
  decide

theorem strip_eq_self_of_ends (l : List Char)
    (hh : ∀ c, l.head? = some c → isSpaceC c = false)
    (hl : ∀ c, l.getLast? = some c → isSpaceC c = false) : strip l = l := by
  apply strip_eq_self
  · intro c r heq
    exact hh c (by rw [heq]; rfl)
  · intro c r heq
    apply hl c
    rw [← List.head?_reverse, heq]
    rfl

/-- An all-word needle whose lowered form differs from the word run `A` is
not found in `A ++ ' ' :: tok` when `tok` is made of digits and decimal
separators and the needle has no digits. -/
theorem wordSearch_none_word_run_then_token (needle A tok : List Char)
    (hne : needle ≠ []) (hw : ∀ c ∈ needle, isWordC c = true)
    (hnd : ∀ c ∈ needle, isDigitC c = false)
    (hA : ∀ c ∈ A, isWordC c = true)
    (hmapA : A.map lowerC ≠ needle.map lowerC)
    (htok : ∀ c ∈ tok, isDigitC c = true ∨ c = '.' ∨ c = ',') :
    wordSearch needle (A ++ ' ' :: tok) = none := by
  cases needle with
  | nil => exact absurd rfl hne
  | cons n ns =>
    unfold wordSearch
    rw [wordSearchAux_skip_run (n :: ns) A (' ' :: tok) 0 false hne hw hA
      (by show isWordC ' ' = false; decide) (Or.inr hmapA)]
    have hmis : ∀ c ∈ (' ' :: tok), lowerC c ≠ lowerC n := by
      intro c hc
      rcases List.mem_cons.mp hc with rfl | hc2
      · exact lower_ne_of_word_nonword ' ' n (by decide) (hw n (List.mem_cons_self _ _))
      · rcases htok c hc2 with hd | rfl | rfl
        · exact lower_ne_of_digit_nondigit c n hd (hnd n (List.mem_cons_self _ _))
        · exact lower_ne_of_word_nonword '.' n (by decide) (hw n (List.mem_cons_self _ _))
        · exact lower_ne_of_word_nonword ',' n (by decide) (hw n (List.mem_cons_self _ _))
    rw [show (' ' :: tok) = (' ' :: tok) ++ [] from (List.append_nil _).symm,
      wordSearchAux_skip_mismatch n ns (' ' :: tok) [] _ _ hmis]
    rfl

/-- Symmetric version: the needle is not found in `tok ++ ' ' :: A`
either. -/
theorem wordSearch_none_token_then_word_run (needle tok A : List Char)
    (hne : needle ≠ []) (hw : ∀ c ∈ needle, isWordC c = true)
    (hnd : ∀ c ∈ needle, isDigitC c = false)
    (hA : ∀ c ∈ A, isWordC c = true)
    (hmapA : A.map lowerC ≠ needle.map lowerC)
    (htok : ∀ c ∈ tok, isDigitC c = true ∨ c = '.' ∨ c = ',') :
    wordSearch needle (tok ++ ' ' :: A) = none := by
  cases needle with
  | nil => exact absurd rfl hne
  | cons n ns =>
    unfold wordSearch
    have hmis : ∀ c ∈ (tok ++ [' ']), lowerC c ≠ lowerC n := by
      intro c hc
      rcases List.mem_append.mp hc with hc2 | hc2
      · rcases htok c hc2 with hd | rfl | rfl
        · exact lower_ne_of_digit_nondigit c n hd (hnd n (List.mem_cons_self _ _))
        · exact lower_ne_of_word_nonword '.' n (by decide) (hw n (List.mem_cons_self _ _))
        · exact lower_ne_of_word_nonword ',' n (by decide) (hw n (List.mem_cons_self _ _))
      · rcases List.mem_singleton.mp hc2 with rfl
        exact lower_ne_of_word_nonword ' ' n (by decide) (hw n (List.mem_cons_self _ _))
    rw [show tok ++ ' ' :: A = (tok ++ [' ']) ++ A by simp,
      wordSearchAux_skip_mismatch n ns (tok ++ [' ']) A 0 false hmis]
    have hfold : (tok ++ [' ']).foldl (fun _ c => isWordC c) false = false := by
      rw [List.foldl_append]
      rfl
    rw [hfold,
      show A = A ++ [] from (List.append_nil _).symm,
      wordSearchAux_skip_run (n :: ns) A [] _ false hne hw hA rfl (Or.inr hmapA)]
    cases A <;> rfl

/-- The needle itself is found at the head of `needle ++ ' ' :: rest`. -/
theorem wordSearch_self_head (needle rest : List Char) (hne : needle ≠ [])
    (hw : ∀ c ∈ needle, isWordC c = true) :
    wordSearch needle (needle ++ ' ' :: rest) = some 0 := by
  have hm : matchWordAt needle false (needle ++ ' ' :: rest) = true :=
    matchWordAt_self needle (' ' :: rest) hne hw (by show isWordC ' ' = false; decide)
  cases needle with
  | nil => exact absurd rfl hne
  | cons n ns =>
    show wordSearchAux (n :: ns) false 0 ((n :: ns) ++ ' ' :: rest) = some 0
    rw [List.cons_append]
    simp only [wordSearchAux]
    rw [show n :: (ns ++ ' ' :: rest) = (n :: ns) ++ ' ' :: rest from rfl, hm]
    rfl

/-- The needle is found after a token prefix in `tok ++ ' ' :: needle`. -/
theorem wordSearch_some_after_token (needle tok : List Char) (hne : needle ≠ [])
    (hw : ∀ c ∈ needle, isWordC c = true)
    (hnd : ∀ c ∈ needle, isDigitC c = false)
    (htok : ∀ c ∈ tok, isDigitC c = true ∨ c = '.' ∨ c = ',') :
    wordSearch needle (tok ++ ' ' :: needle) ≠ none := by
  cases needle with
  | nil => exact absurd rfl hne
  | cons n ns =>
    unfold wordSearch
    have hmis : ∀ c ∈ (tok ++ [' ']), lowerC c ≠ lowerC n := by
      intro c hc
      rcases List.mem_append.mp hc with hc2 | hc2
      · rcases htok c hc2 with hd | rfl | rfl
        · exact lower_ne_of_digit_nondigit c n hd (hnd n (List.mem_cons_self _ _))
        · exact lower_ne_of_word_nonword '.' n (by decide) (hw n (List.mem_cons_self _ _))
        · exact lower_ne_of_word_nonword ',' n (by decide) (hw n (List.mem_cons_self _ _))
      · rcases List.mem_singleton.mp hc2 with rfl
        exact lower_ne_of_word_nonword ' ' n (by decide) (hw n (List.mem_cons_self _ _))
    rw [show tok ++ ' ' :: (n :: ns) = (tok ++ [' ']) ++ (n :: ns) by simp,
      wordSearchAux_skip_mismatch n ns (tok ++ [' ']) (n :: ns) 0 false hmis]
    have hfold : (tok ++ [' ']).foldl (fun _ c => isWordC c) false = false := by
      rw [List.foldl_append]
      rfl
    rw [hfold]
    have hm : matchWordAt (n :: ns) false ((n :: ns) ++ []) = true :=
      matchWordAt_self (n :: ns) [] (by simp) hw rfl
    rw [List.append_nil] at hm
    simp only [wordSearchAux]
    rw [hm]
    simp

/-- Witness for C8 (amended) on the token "12,50" typed at the amount
step: both rules yield 12.50, and the registration-order dispatch
consumes the message with no reply and no session change. -/
theorem amount_rule_agreement_and_amount_step_shadowed_witness :
    parse_amount "12,50".toList = .ok (amountVal ['1', '2'] ['5', '0']) ∧
    (amountStage (strip "12,50".toList)).1 = some (amountVal ['1', '2'] ['5', '0']) ∧
    dispatchText ⟨[], ⟨2024, 9, 5⟩, true⟩ "12,50".toList ⟨.enteringAmount, emptyData⟩
      = (⟨.enteringAmount, emptyData⟩, .noReply) := by
  have h := amount_rule_agreement_and_amount_step_shadowed "12,50".toList
    ⟨.enteringAmount, emptyData⟩ ⟨[], ⟨2024, 9, 5⟩, true⟩ ['1', '2'] ['5', '0'] ','
    (by decide) (by decide) (by decide)
    (Or.inr ⟨Or.inr rfl, by decide, Or.inr rfl⟩) rfl
  have h1 := h.1.1 (by decide)
  exact ⟨h1.1, h1.2, h.2⟩

/-! ## C7: "<category> <amount>" / "<amount> <category>" texts -/

/-- Counterexample to C7 as stated: "вчера 100" has the form
"<category> <amount>" for a known category named exactly "вчера", and the
extractor does resolve both the category and the amount — but spentAt
does not stay unset: the category name collides with the date alias
"вчера", so spentAt is set to the day before `now`. -/
theorem category_alias_sets_spentat :
    parse_smart_message "вчера 100".toList [⟨1, "вчера".toList⟩] ⟨2024, 9, 5⟩
      = ⟨some ⟨1, "вчера".toList⟩, some (mkRat 100 1), some ⟨2024, 9, 4⟩, none⟩ := by
  decide

theorem head_append_left (l r : List Char) (h : l ≠ []) :
    (l ++ r).head? = l.head? := by
  cases l with
  | nil => exact absurd rfl h
  | cons a s => rfl

theorem getLast_append_right (l r : List Char) (h : r ≠ []) :
    (l ++ r).getLast? = r.getLast? := by
  rw [← List.head?_reverse, ← List.head?_reverse, List.reverse_append]
  cases hr : r.reverse with
  | nil => exact absurd (List.reverse_eq_nil_iff.mp hr) h
  | cons a s => rfl

theorem mem_of_head (l : List Char) (c : Char) (h : l.head? = some c) : c ∈ l := by
  cases l with
  | nil => cases h
  | cons a s =>
    rw [List.head?_cons] at h
    cases h
    exact List.mem_cons_self _ _

/-- Texts of the two C7 shapes strip to themselves. -/
theorem strip_word_token (N tok : List Char) (hN : N ≠ []) (htokne : tok ≠ [])
    (hNw : ∀ c ∈ N, isWordC c = true)
    (htokc : ∀ c ∈ tok, isDigitC c = true ∨ c = '.' ∨ c = ',') :
    strip (N ++ ' ' :: tok) = N ++ ' ' :: tok ∧
    strip (tok ++ ' ' :: N) = tok ++ ' ' :: N := by
  have hnsp : ∀ c ∈ tok, isSpaceC c = false := by
    intro c hc
    rcases htokc c hc with hd | rfl | rfl
    · exact digit_not_space c hd
    · decide
    · decide
  constructor
  · apply strip_eq_self_of_ends
    · intro c hc
      rw [head_append_left _ _ hN] at hc
      exact word_not_space c (hNw c (mem_of_head _ _ hc))
    · intro c hc
      rw [show N ++ ' ' :: tok = (N ++ [' ']) ++ tok by simp,
        getLast_append_right _ _ htokne] at hc
      exact hnsp c (mem_of_getLast? hc)
  · apply strip_eq_self_of_ends
    · intro c hc
      rw [head_append_left _ _ htokne] at hc
      exact hnsp c (mem_of_head _ _ hc)
    · intro c hc
      rw [show tok ++ ' ' :: N = (tok ++ [' ']) ++ N by simp,
        getLast_append_right _ _ hN] at hc
      exact word_not_space c (hNw c (mem_of_getLast? hc))

/-- Dot counts of the two C7 shapes stay below the two dots a date match
needs. -/
theorem count_dot_pair (N tok : List Char)
    (hNw : ∀ c ∈ N, isWordC c = true) (htokd : tok.count '.' ≤ 1) :
    (N ++ ' ' :: tok).count '.' < 2 ∧ (tok ++ ' ' :: N).count '.' < 2 := by
  have hN0 : N.count '.' = 0 := count_dot_zero_word N hNw
  have hsp : (if (' ' == '.') = true then 1 else 0) = 0 := by decide
  constructor
  · rw [List.count_append, List.count_cons, hN0, hsp]
    omega
  · rw [List.count_append, List.count_cons, hN0, hsp]
    omega

/-- Core of C7: with a positive amount token found, fewer than two dots,
no alias occurrence, and a category found, the three draft fields come
out as the amended claim states. -/
theorem draft_resolved_of_parts (t : List Char) (cats : List Category) (now : Date)
    (i len : Nat) (ds fs : List Char)
    (hts : strip t = t) (htne : t ≠ [])
    (hsearch : amountSearch t = some (i, len, ds, fs))
    (hpos : 0 < amountVal ds fs)
    (hdots : t.count '.' < 2)
    (hw1 : wordSearch "сегодня".toList t = none)
    (hw2 : wordSearch "вчера".toList t = none)
    (hw3 : wordSearch "позавчера".toList t = none)
    (hcat : (categoryStage cats t).1 ≠ none) :
    (parse_smart_message t cats now).category ≠ none ∧
    (parse_smart_message t cats now).amount = some (amountVal ds fs) ∧
    (parse_smart_message t cats now).spentAt = none := by
  have hp : parse_smart_message t cats now = draftStages t cats now := by
    rw [parse_nonempty t cats now (by rw [hts]; exact htne), hts]
  have hx : explicitDateStage t now = (none, []) := explicitDateStage_of_dots t now hdots
  have ha : aliasStage t now = (none, []) := by
    simp only [aliasStage, DATE_ALIASES, aliasScan, hw1, hw2, hw3]
  refine ⟨?_, ?_, ?_⟩
  · rw [hp, draftStages_category]
    exact hcat
  · rw [hp, draftStages_amount]
    simp only [amountStage, hsearch]
    rw [if_pos hpos]
  · rw [hp, draftStages_spentAt]
    simp [hx, ha]

/-- C7 (amended): for every text of the form "<category> <amount>" or
"<amount> <category>", where the category name is a known category's name
made of word characters without digits whose case-folded form is not one
of the date aliases, and the amount is a token of the extractor's shape
`\\d+([.,]\\d{1,2})?` with positive value, the extractor resolves both the
category field (case-insensitive whole-word match, longest names first)
and the amount field, and leaves spentAt unset.  (Without the
alias-collision proviso the property fails: a category named "вчера"
sets spentAt.) -/
theorem category_amount_resolved_spentat_unset
    (N tok ds fs : List Char) (sep : Char) (cid : Nat)
    (cats : List Category) (now : Date)
    (hN : N ≠ []) (hNw : ∀ c ∈ N, isWordC c = true)
    (hNd : ∀ c ∈ N, isDigitC c = false)
    (ha1 : N.map lowerC ≠ "сегодня".toList.map lowerC)
    (ha2 : N.map lowerC ≠ "вчера".toList.map lowerC)
    (ha3 : N.map lowerC ≠ "позавчера".toList.map lowerC)
    (hmem : (⟨cid, N⟩ : Category) ∈ cats)
    (hne : ds ≠ []) (hd : ∀ c ∈ ds, isDigitC c = true)
    (hf : ∀ c ∈ fs, isDigitC c = true)
    (htok : tok = ds ∧ fs = [] ∨
      tok = ds ++ sep :: fs ∧ (sep = '.' ∨ sep = ',') ∧ (fs.length = 1 ∨ fs.length = 2))
    (hpos : 0 < amountVal ds fs)
    (t : List Char) (ht : t = N ++ ' ' :: tok ∨ t = tok ++ ' ' :: N) :
    (parse_smart_message t cats now).category ≠ none ∧
    (parse_smart_message t cats now).amount = some (amountVal ds fs) ∧
    (parse_smart_message t cats now).spentAt = none := by
  have htokc : ∀ c ∈ tok, isDigitC c = true ∨ c = '.' ∨ c = ',' := by
    rcases htok with ⟨h1, h2⟩ | ⟨h1, hsep, h2⟩ <;> subst h1
    · intro c hc
      exact Or.inl (hd c hc)
    · intro c hc
      rcases List.mem_append.mp hc with h3 | h3
      · exact Or.inl (hd c h3)
      · rcases List.mem_cons.mp h3 with rfl | h4
        · rcases hsep with h5 | h5
          · exact Or.inr (Or.inl h5)
          · exact Or.inr (Or.inr h5)
        · exact Or.inl (hf c h4)
  have htokne : tok ≠ [] := by
    rcases htok with ⟨h1, h2⟩ | ⟨h1, h2, h3⟩ <;> subst h1
    · exact hne
    · cases ds with
      | nil => exact absurd rfl hne
      | cons a s => simp
  have htokdot : tok.count '.' ≤ 1 := by
    rcases htok with ⟨h1, h2⟩ | ⟨h1, h2, h3⟩ <;> subst h1
    · rw [count_dot_zero tok hd]
      omega
    · rw [List.count_append, count_dot_zero ds hd, List.count_cons, count_dot_zero fs hf]
      split <;> omega
  have htokat : ∃ len, amountTokenAt tok = some (len, ds, fs) := by
    rcases htok with ⟨h1, h2⟩ | ⟨h1, hsep, hflen⟩ <;> subst h1
    · subst h2
      refine ⟨tok.length, ?_⟩
      have h3 := amountTokenAt_bare tok [] hne hd (Or.inl rfl)
      rwa [List.append_nil] at h3
    · refine ⟨ds.length + 1 + fs.length, ?_⟩
      have h3 := amountTokenAt_sep ds fs [] sep hne hd hsep hf hflen (Or.inl rfl)
      rwa [List.append_nil] at h3
  have htokat2 : ∃ len, amountTokenAt (tok ++ ' ' :: N) = some (len, ds, fs) := by
    rcases htok with ⟨h1, h2⟩ | ⟨h1, hsep, hflen⟩ <;> subst h1
    · subst h2
      exact ⟨tok.length, amountTokenAt_bare tok (' ' :: N) hne hd (Or.inr ⟨N, rfl⟩)⟩
    · refine ⟨ds.length + 1 + fs.length, ?_⟩
      have h3 := amountTokenAt_sep ds fs (' ' :: N) sep hne hd hsep hf hflen (Or.inr ⟨N, rfl⟩)
      rwa [show ds ++ sep :: (fs ++ ' ' :: N) = (ds ++ sep :: fs) ++ ' ' :: N by simp] at h3
  have hstrips := strip_word_token N tok hN htokne hNw htokc
  rcases ht with rfl | rfl
  · obtain ⟨len, hat⟩ := htokat
    have hnd2 : ∀ c ∈ (N ++ [' ']), isDigitC c = false := by
      intro c hc
      rcases List.mem_append.mp hc with h2 | h2
      · exact hNd c h2
      · rcases List.mem_singleton.mp h2 with rfl
        decide
    have hsearch : amountSearch (N ++ ' ' :: tok)
        = some (0 + (N ++ [' ']).length, len, ds, fs) := by
      show amountSearchAux false 0 (N ++ ' ' :: tok) = _
      rw [show N ++ ' ' :: tok = (N ++ [' ']) ++ tok by simp,
        amountSearchAux_skip (N ++ [' ']) tok 0 hnd2]
      exact amountSearchAux_at_head tok _ len ds fs hat
    have hdots := (count_dot_pair N tok hNw htokdot).1
    have hw1 := wordSearch_none_word_run_then_token "сегодня".toList N tok
      (by decide) (by decide) (by decide) hNw ha1 htokc
    have hw2 := wordSearch_none_word_run_then_token "вчера".toList N tok
      (by decide) (by decide) (by decide) hNw ha2 htokc
    have hw3 := wordSearch_none_word_run_then_token "позавчера".toList N tok
      (by decide) (by decide) (by decide) hNw ha3 htokc
    have hfind : wordSearch N (N ++ ' ' :: tok) ≠ none := by
      rw [wordSearch_self_head N tok hN hNw]
      simp
    have hcat : (categoryStage cats (N ++ ' ' :: tok)).1 ≠ none :=
      categoryStage_ne_none cats _ ⟨cid, N⟩ hmem hfind
    exact draft_resolved_of_parts _ cats now _ len ds fs hstrips.1 (by simp)
      hsearch hpos hdots hw1 hw2 hw3 hcat
  · obtain ⟨len, hat⟩ := htokat2
    have hsearch : amountSearch (tok ++ ' ' :: N) = some (0, len, ds, fs) :=
      amountSearch_at_head _ len ds fs hat
    have hdots := (count_dot_pair N tok hNw htokdot).2
    have hw1 := wordSearch_none_token_then_word_run "сегодня".toList tok N
      (by decide) (by decide) (by decide) hNw ha1 htokc
    have hw2 := wordSearch_none_token_then_word_run "вчера".toList tok N
      (by decide) (by decide) (by decide) hNw ha2 htokc
    have hw3 := wordSearch_none_token_then_word_run "позавчера".toList tok N
      (by decide) (by decide) (by decide) hNw ha3 htokc
    have hfind : wordSearch N (tok ++ ' ' :: N) ≠ none :=
      wordSearch_some_after_token N tok hN hNw hNd htokc
    have hcat : (categoryStage cats (tok ++ ' ' :: N)).1 ≠ none :=
      categoryStage_ne_none cats _ ⟨cid, N⟩ hmem hfind
    exact draft_resolved_of_parts _ cats now 0 len ds fs hstrips.2 (by simp)
      hsearch hpos hdots hw1 hw2 hw3 hcat

/-- Witness for C7 (amended) on "еда 40" with the known category "еда":
category and amount are resolved and no date is extracted. -/
theorem category_amount_resolved_spentat_unset_witness :
    (parse_smart_message "еда 40".toList [⟨1, "еда".toList⟩] ⟨2024, 9, 5⟩).category ≠ none ∧
    (parse_smart_message "еда 40".toList [⟨1, "еда".toList⟩] ⟨2024, 9, 5⟩).amount
      = some (amountVal ['4', '0'] []) ∧
    (parse_smart_message "еда 40".toList [⟨1, "еда".toList⟩] ⟨2024, 9, 5⟩).spentAt = none :=
  category_amount_resolved_spentat_unset "еда".toList ['4', '0'] ['4', '0'] [] '.' 1
    [⟨1, "еда".toList⟩] ⟨2024, 9, 5⟩ (by decide) (by decide) (by decide)
    (by decide) (by decide) (by decide) (List.mem_cons_self _ _)
    (by decide) (by decide) (by decide) (Or.inl ⟨rfl, rfl⟩) (by decide)
    "еда 40".toList (Or.inl (by decide))

/-! ## C4: re-extracting from the description residue -/

/-- Counterexample to C4 as stated: extracting from "обед 300 кофе 200"
consumes only the first amount "300", so the description residue is
"обед кофе 200" — and a second extraction on that residue recognizes
"200" as an amount, so the residue is not idempotent. -/
theorem residue_not_idempotent :
    (parse_smart_message "обед 300 кофе 200".toList [] ⟨2024, 9, 5⟩).description
      = some "обед кофе 200".toList ∧
    (parse_smart_message "обед кофе 200".toList [] ⟨2024, 9, 5⟩).amount
      = some (mkRat 200 1) := by
  decide

/-- `str.strip()` is idempotent. -/
theorem strip_idem (l : List Char) : strip (strip l) = strip l := by
  cases hsl : strip l with
  | nil => rfl
  | cons c r =>
    rw [← hsl]
    apply strip_eq_self
    · intro a s heq
      have h2 : ((l.dropWhile isSpaceC).reverse.dropWhile isSpaceC).reverse = a :: s := heq
      have hv : (l.dropWhile isSpaceC).reverse.dropWhile isSpaceC = s.reverse ++ [a] := by
        rw [← List.reverse_reverse ((l.dropWhile isSpaceC).reverse.dropWhile isSpaceC), h2,
          List.reverse_cons]
      have hvne : (l.dropWhile isSpaceC).reverse.dropWhile isSpaceC ≠ [] := by
        rw [hv]
        simp
      have hsplit : (l.dropWhile isSpaceC).reverse
          = (l.dropWhile isSpaceC).reverse.takeWhile isSpaceC
            ++ (l.dropWhile isSpaceC).reverse.dropWhile isSpaceC := by
        rw [List.takeWhile_append_dropWhile]
      have hlast : ((l.dropWhile isSpaceC).reverse).getLast? = some a := by
        rw [hsplit, getLast_append_right _ _ hvne, hv,
          getLast_append_right _ _ (by simp : ([a] : List Char) ≠ [])]
        rfl
      have hhead : (l.dropWhile isSpaceC).head? = some a := by
        rw [← List.reverse_reverse (l.dropWhile isSpaceC), List.head?_reverse]
        exact hlast
      cases hu : l.dropWhile isSpaceC with
      | nil =>
        rw [hu] at hhead
        cases hhead
      | cons b u2 =>
        rw [hu, List.head?_cons] at hhead
        cases hhead
        exact dropWhile_head_false hu
    · intro a s heq
      rw [show (strip l).reverse = (l.dropWhile isSpaceC).reverse.dropWhile isSpaceC from by
        unfold strip; rw [List.reverse_reverse]] at heq
      exact dropWhile_head_false heq

/-- C4 (amended): the residue is idempotent for drafts in which nothing
was recognized: if the input is already whitespace-normalized after
stripping and the extraction found no amount, no date, and no category,
then the description is the whole stripped text and re-extracting it
yields exactly the same draft.  (In general the claim fails: spans of
recognized entities are cut out, and the residue can expose a further
amount, date, or category occurrence that the first pass did not consume
— see the counterexample.) -/
theorem residue_idempotent_when_nothing_recognized (t : List Char)
    (cats : List Category) (now : Date)
    (hnorm : normWS (strip t) = strip t)
    (ha : (parse_smart_message t cats now).amount = none)
    (hs : (parse_smart_message t cats now).spentAt = none)
    (hc : (parse_smart_message t cats now).category = none)
    (d : List Char)
    (hd : (parse_smart_message t cats now).description = some d) :
    parse_smart_message d cats now = parse_smart_message t cats now := by
  by_cases hemp : strip t = []
  · rw [parse_empty t cats now hemp] at hd
    cases hd
  · have hp : parse_smart_message t cats now = draftStages (strip t) cats now :=
      parse_nonempty t cats now hemp
    rw [hp] at ha hs hc hd ⊢
    rw [draftStages_no_entity_description _ _ _ ha hs hc, hnorm, if_neg hemp] at hd
    cases hd
    rw [parse_nonempty (strip t) cats now (by rw [strip_idem]; exact hemp), strip_idem]

/-- Witness for C4 (amended): "  привет мир  " strips to the normalized
"привет мир", nothing is recognized, and re-extracting the description
gives the same draft. -/
theorem residue_idempotent_when_nothing_recognized_witness :
    parse_smart_message "привет мир".toList [] ⟨2024, 9, 5⟩
      = parse_smart_message "  привет мир  ".toList [] ⟨2024, 9, 5⟩ :=
  residue_idempotent_when_nothing_recognized "  привет мир  ".toList [] ⟨2024, 9, 5⟩
    (by decide) (by decide) (by decide) (by decide) "привет мир".toList (by decide)

end Moneywise
